import Mathlib

/-!
# Verification of the mcrs voxel-world core

Shallow embedding of the chunk/meshing/streaming/raycasting core of the
`mcrs` voxel sandbox (files `src/lib.rs` and `src/voxel.rs`), together with
theorems settling the frozen specification claims.

Modelling conventions:
* `f32`/`f64` positions and the small integer-valued floating point values the
  code manipulates (chunk offsets, merged extents, voxel counts) are modelled
  as exact rationals `ℚ` or naturals.  Every floating point computation the
  embedded fragments perform on the inputs used in the theorems is exact in
  `f32`/`f64` (sums, differences and products of small integers and halves,
  and division only where the claims instantiate it), so the rational model
  agrees with the compiled code there.
* machine integers are `ℕ`/`ℤ`; the one place where `u32` overflow is
  reachable in principle (`combine_meshes` index offsetting) keeps an explicit
  `% 2^32`.
* Rust `HashMap`s become association lists, `HashSet`s become lists with
  idempotent insertion; Bevy ECS plumbing (entities, commands) is stripped to
  the data it transports.
* code that can panic (`Option::unwrap`) is modelled with `Option`: `none`
  is the panic outcome.
-/

unseal Rat.add Rat.mul Rat.inv Rat.sub

set_option maxRecDepth 40000

/-- `CHUNK_SIZE` from `voxel.rs`: 16 voxels in each direction. -/
def CHUNK_SIZE : ℕ := 16

/-- `CHUNK_LIMIT_Y` from `voxel.rs`: chunk limit in the y direction. -/
def CHUNK_LIMIT_Y : ℕ := 16

/-- `WAVE_LENGTH` from `voxel.rs`: noise wavelength in voxels. -/
def WAVE_LENGTH : ℕ := 64

/-- A `Vec3` of exact rationals (model of Bevy's `Vec3` of `f32`). -/
abbrev Vec3Q : Type := ℚ × ℚ × ℚ

/-- `ChunkIndex` from `voxel.rs` (three `i32` fields, value equality). -/
structure ChunkIndex where
  x : ℤ
  y : ℤ
  z : ℤ
deriving DecidableEq, Repr

/-- `ChunkColumn` from `voxel.rs` (an `(x, z)` column key). -/
structure ChunkColumn where
  x : ℤ
  z : ℤ
deriving DecidableEq, Repr

/-- `ChunkData` from `voxel.rs`.  The fixed `[[[u8; 16]; 16]; 16]` array is
modelled as a total function; all embedded code only reads indices `< 16`,
matching the in-bounds accesses of the source. Indexing order is
`voxels x y z` for `voxels[x][y][z]`. -/
structure ChunkData where
  level : ℕ
  index : ChunkIndex
  voxels : ℕ → ℕ → ℕ → ℕ

/-- `get_chunk_index` from `voxel.rs`: floor-divide a world position by the
chunk edge length 16. -/
def get_chunk_index (pos : Vec3Q) : ChunkIndex :=
  ⟨⌊pos.1 / (CHUNK_SIZE : ℚ)⌋, ⌊pos.2.1 / (CHUNK_SIZE : ℚ)⌋, ⌊pos.2.2 / (CHUNK_SIZE : ℚ)⌋⟩

/-- `VoxelLocalIndex` from `voxel.rs` (three `u8` fields). -/
structure VoxelLocalIndex where
  x : ℕ
  y : ℕ
  z : ℕ
deriving DecidableEq, Repr

/-- `pos_to_voxel` from `voxel.rs`: world position to owning chunk plus local
voxel index.  `(pos.x - chunk_index.x * 16).floor() as u8` is exact here
because the floored difference always lies in `[0, 16)`. -/
def pos_to_voxel (pos : Vec3Q) : ChunkIndex × VoxelLocalIndex :=
  let chunk_index := get_chunk_index pos
  (chunk_index,
    { x := (⌊pos.1 - (chunk_index.x : ℚ) * (CHUNK_SIZE : ℚ)⌋).toNat
      y := (⌊pos.2.1 - (chunk_index.y : ℚ) * (CHUNK_SIZE : ℚ)⌋).toNat
      z := (⌊pos.2.2 - (chunk_index.z : ℚ) * (CHUNK_SIZE : ℚ)⌋).toNat })

/-! ## The sparse chunk map (`VoxelData`) and the edit queue -/

/-- The `HashMap<ChunkIndex, ChunkData>` of `VoxelData`, as an association
list with unique keys maintained by insertion-only-if-absent. -/
abbrev ChunkMap : Type := List (ChunkIndex × ChunkData)

/-- `VoxelData.chunks.get(..)`. -/
def lookupChunk (m : ChunkMap) (ci : ChunkIndex) : Option ChunkData :=
  (m.find? (fun e => e.1 = ci)).map (·.2)

/-- Overwrite one voxel cell of a chunk (the `chunk.voxels[..][..][..] = tid`
assignment in `handle_voxel_modify_queue`). -/
def setVoxel (cd : ChunkData) (li : VoxelLocalIndex) (tid : ℕ) : ChunkData :=
  { cd with
    voxels := fun a b c =>
      if a = li.x ∧ b = li.y ∧ c = li.z then tid else cd.voxels a b c }

/-- In-place mutation through `chunks.get_mut(&chunk_index)`: rewrite the
entry with the given key, leaving all other entries (and all keys) intact. -/
def updateChunk (m : ChunkMap) (ci : ChunkIndex) (li : VoxelLocalIndex) (tid : ℕ) : ChunkMap :=
  m.map (fun e => if e.1 = ci then (e.1, setVoxel e.2 li tid) else e)

/-- `HashSet::insert` on the column remesh queue (idempotent). -/
def insertColumn (c : ChunkColumn) (q : List ChunkColumn) : List ChunkColumn :=
  if c ∈ q then q else q ++ [c]

/-- The mutable resources touched by `handle_voxel_modify_queue`:
`VoxelData`, `VoxelModifyQueue`, `ChunkMeshesUpdateQueue`. -/
structure EditState where
  chunks : ChunkMap
  queue : List (Vec3Q × ℕ)
  dirty : List ChunkColumn

/-- The edit-application loop of `handle_voxel_modify_queue` (`lib.rs`
447-463).  For each queued `(position, tid)` it resolves the owning chunk via
`pos_to_voxel` and then calls `voxel_data.chunks.get_mut(&chunk_index)
.unwrap()`: if the chunk is not resident this `unwrap` panics, modelled as
`none`.  Otherwise the voxel cell is overwritten and the owning column is
inserted into the remesh queue. -/
def applyEdits (chunks : ChunkMap) (dirty : List ChunkColumn) :
    List (Vec3Q × ℕ) → Option (ChunkMap × List ChunkColumn)
  | [] => some (chunks, dirty)
  | (pos, tid) :: rest =>
    let cv := pos_to_voxel pos
    match lookupChunk chunks cv.1 with
    | none => none
    | some _ =>
      applyEdits (updateChunk chunks cv.1 cv.2 tid)
        (insertColumn ⟨cv.1.x, cv.1.z⟩ dirty) rest

/-- `handle_voxel_modify_queue` from `lib.rs`: drain the edit queue, applying
every edit in submission order, then clear the queue.  `none` models the
panic of the `unwrap` on a non-resident chunk. -/
def handle_voxel_modify_queue (st : EditState) : Option EditState :=
  (applyEdits st.chunks st.dirty st.queue).map (fun r => ⟨r.1, [], r.2⟩)

/-! ## The voxel raycaster -/

/-- `to_voxel_position` from `voxel.rs`: componentwise floor. -/
def to_voxel_position (pos : Vec3Q) : Vec3Q :=
  ((⌊pos.1⌋ : ℚ), (⌊pos.2.1⌋ : ℚ), (⌊pos.2.2⌋ : ℚ))

/-- `f32::MAX` as an exact rational: `(2 - 2⁻²³) · 2¹²⁷`. -/
def f32MAX : ℚ := 2 ^ 128 - 2 ^ 104

/-- One advance of the grid traversal in `get_intersected_voxels`
(`voxel.rs` 773-789): step along the axis with the smallest pending `t_max`,
returning the new `t_max` triple and the new current voxel. -/
def rayStep (tdx tdy tdz sx sy sz : ℚ) (tm : ℚ × ℚ × ℚ) (cur : Vec3Q) :
    (ℚ × ℚ × ℚ) × Vec3Q :=
  if tm.1 < tm.2.1 then
    if tm.1 < tm.2.2 then
      ((tm.1 + tdx, tm.2.1, tm.2.2), (cur.1 + sx, cur.2.1, cur.2.2))
    else
      ((tm.1, tm.2.1, tm.2.2 + tdz), (cur.1, cur.2.1, cur.2.2 + sz))
  else
    if tm.2.1 < tm.2.2 then
      ((tm.1, tm.2.1 + tdy, tm.2.2), (cur.1, cur.2.1 + sy, cur.2.2))
    else
      ((tm.1, tm.2.1, tm.2.2 + tdz), (cur.1, cur.2.1, cur.2.2 + sz))

/-- The traversal loop of `get_intersected_voxels` (`voxel.rs` 772-794).
Arguments: per-axis `t_delta`s and steps, the iteration cap
`range as usize * 3`, fuel (the loop runs at most `cap` times since every
non-final iteration appends a voxel, so `fuel = cap` reproduces the `while`
loop exactly), the running `t_max` values, the current voxel, and the
accumulated output.  Each iteration advances via `rayStep`, then stops
without pushing if all three `t_max` exceed 1. -/
def rayLoop (tdx tdy tdz sx sy sz : ℚ) (cap : ℕ) :
    ℕ → ℚ × ℚ × ℚ → Vec3Q → List Vec3Q → List Vec3Q
  | 0, _, _, acc => acc
  | fuel + 1, tm, cur, acc =>
    if acc.length < cap then
      if 1 < (rayStep tdx tdy tdz sx sy sz tm cur).1.1 ∧
          1 < (rayStep tdx tdy tdz sx sy sz tm cur).1.2.1 ∧
          1 < (rayStep tdx tdy tdz sx sy sz tm cur).1.2.2 then acc
      else
        rayLoop tdx tdy tdz sx sy sz cap fuel
          (rayStep tdx tdy tdz sx sy sz tm cur).1
          (rayStep tdx tdy tdz sx sy sz tm cur).2
          (acc ++ [(rayStep tdx tdy tdz sx sy sz tm cur).2])
    else acc

/-- `get_intersected_voxels` from `voxel.rs` (702-796).  The source first
normalizes the passed direction; the embedding takes the already-normalized
direction (the directions used in the claims are unit axis vectors, on which
`normalize` is the identity).  `range as usize` truncates toward zero and
saturates below at 0, which is `(⌊range⌋).toNat` for the exact model. -/
def get_intersected_voxels (start_point n_direction : Vec3Q) (range : ℚ) : List Vec3Q :=
  let end_point : Vec3Q :=
    (start_point.1 + n_direction.1 * range,
     start_point.2.1 + n_direction.2.1 * range,
     start_point.2.2 + n_direction.2.2 * range)
  let start_voxel := to_voxel_position start_point
  let step_x : ℚ := if 0 < n_direction.1 then 1 else if n_direction.1 < 0 then -1 else 0
  let step_y : ℚ := if 0 < n_direction.2.1 then 1 else if n_direction.2.1 < 0 then -1 else 0
  let step_z : ℚ := if 0 < n_direction.2.2 then 1 else if n_direction.2.2 < 0 then -1 else 0
  let t_delta_x : ℚ :=
    if step_x ≠ 0 then min (step_x / (end_point.1 - start_point.1)) f32MAX else f32MAX
  let t_delta_y : ℚ :=
    if step_y ≠ 0 then min (step_y / (end_point.2.1 - start_point.2.1)) f32MAX else f32MAX
  let t_delta_z : ℚ :=
    if step_z ≠ 0 then min (step_z / (end_point.2.2 - start_point.2.2)) f32MAX else f32MAX
  let t_max_x : ℚ :=
    if 0 < step_x then t_delta_x * (1 - start_point.1 + start_voxel.1)
    else t_delta_x * (start_point.1 - start_voxel.1)
  let t_max_y : ℚ :=
    if 0 < step_y then t_delta_y * (1 - start_point.2.1 + start_voxel.2.1)
    else t_delta_y * (start_point.2.1 - start_voxel.2.1)
  let t_max_z : ℚ :=
    if 0 < step_z then t_delta_z * (1 - start_point.2.2 + start_voxel.2.2)
    else t_delta_z * (start_point.2.2 - start_voxel.2.2)
  let cap : ℕ := (⌊range⌋).toNat * 3
  rayLoop t_delta_x t_delta_y t_delta_z step_x step_y step_z cap cap
    (t_max_x, t_max_y, t_max_z) start_voxel [start_voxel]

/-! ## Sanity lemmas for the raycaster -/

theorem rayLoop_eq_append (tdx tdy tdz sx sy sz : ℚ) (cap : ℕ) :
    ∀ (fuel : ℕ) (tm : ℚ × ℚ × ℚ) (cur : Vec3Q) (acc : List Vec3Q),
      ∃ t, rayLoop tdx tdy tdz sx sy sz cap fuel tm cur acc = acc ++ t := by
  intro fuel
  induction fuel with
  | zero => exact fun tm cur acc => ⟨[], by simp [rayLoop]⟩
  | succ n ih =>
    intro tm cur acc
    rw [rayLoop]
    by_cases h : acc.length < cap
    · simp only [if_pos h]
      by_cases hb : 1 < (rayStep tdx tdy tdz sx sy sz tm cur).1.1 ∧
          1 < (rayStep tdx tdy tdz sx sy sz tm cur).1.2.1 ∧
          1 < (rayStep tdx tdy tdz sx sy sz tm cur).1.2.2
      · exact ⟨[], by simp [if_pos hb]⟩
      · simp only [if_neg hb]
        obtain ⟨t, ht⟩ := ih _ _ (acc ++ [(rayStep tdx tdy tdz sx sy sz tm cur).2])
        exact ⟨_, by rw [ht, List.append_assoc]⟩
    · exact ⟨[], by simp [if_neg h]⟩

lemma rayLoop_singleton_head (a b c p q u : ℚ) (cap fuel : ℕ) (tm : ℚ × ℚ × ℚ)
    (cur sv : Vec3Q) :
    (rayLoop a b c p q u cap fuel tm cur [sv]).head? = some sv ∧
      rayLoop a b c p q u cap fuel tm cur [sv] ≠ [] := by
  obtain ⟨t, ht⟩ := rayLoop_eq_append a b c p q u cap fuel tm cur [sv]
  rw [ht]
  simp

/-! ## Terrain generation (`ChunkData::new`) -/

/-- A Rust `as i32` cast of a finite float value: truncation toward zero. -/
def truncToInt (q : ℚ) : ℤ := if 0 ≤ q then ⌊q⌋ else -⌊-q⌋

/-- The `lerp` crate's `Lerp for f64`: `self + (other - self) * t`. -/
def lerpQ (a b t : ℚ) : ℚ := a + (b - a) * t

/-- The terrain height computed by `ChunkData::new` (`voxel.rs` 98-103) at a
pair of noise-plane coordinates: `48.0.lerp(128.0, (val + 1.0) / 2.0) as i32`
where `val = perlin.get([wx, wz, 0.0])`.  The Perlin noise of the external
`noise` crate (fixed seed 123) is not part of this repository; it enters the
embedding as an arbitrary function `perlin` of the two scaled world
coordinates, with the documented output range `[-1, 1]` taken as a hypothesis
where a claim needs it. -/
def landHeight (perlin : ℚ → ℚ → ℚ) (wx wz : ℚ) : ℤ :=
  truncToInt (lerpQ 48 128 ((perlin wx wz + 1) / 2))

/-- `ChunkData::new` from `voxel.rs` (86-126), parametrized by the noise
function.  For each horizontal cell `(x, z)` the noise is sampled at the
world coordinate divided by `WAVE_LENGTH = 64`; a cell is solid (1) unless
its world altitude exceeds the terrain height.  `chunk_offset.y as usize`
saturates below at 0, which for the integer-valued (and, for in-range world
coordinates `|16·index.y| < 2²⁴`, exactly represented) `f32` offset is
`(16 * index.y).toNat`. -/
def ChunkData.new (perlin : ℚ → ℚ → ℚ) (chunk_index : ChunkIndex) : ChunkData :=
  { level := 0
    index := chunk_index
    voxels := fun x y z =>
      if ((y : ℤ) + ((16 * chunk_index.y).toNat : ℤ)) >
          landHeight perlin (((x : ℚ) + (chunk_index.x : ℚ) * 16) / 64)
            (((z : ℚ) + (chunk_index.z : ℚ) * 16) / 64) then 0
      else 1 }

lemma landHeight_ge (perlin : ℚ → ℚ → ℚ) (wx wz : ℚ)
    (hlo : -1 ≤ perlin wx wz) : 48 ≤ landHeight perlin wx wz := by
  have h0 : (0 : ℚ) ≤ (perlin wx wz + 1) / 2 := by linarith
  have h48 : (48 : ℚ) ≤ lerpQ 48 128 ((perlin wx wz + 1) / 2) := by
    unfold lerpQ
    nlinarith
  have hpos : (0 : ℚ) ≤ lerpQ 48 128 ((perlin wx wz + 1) / 2) := by linarith
  unfold landHeight truncToInt
  rw [if_pos hpos]
  exact Int.le_floor.2 (by exact_mod_cast h48)

/-! ## Claim C1: edits on non-resident chunks -/

lemma lookupChunk_updateChunk_none (m : ChunkMap) (ci0 ci : ChunkIndex)
    (li : VoxelLocalIndex) (tid : ℕ) :
    lookupChunk (updateChunk m ci0 li tid) ci = none ↔ lookupChunk m ci = none := by
  induction m with
  | nil => simp [updateChunk, lookupChunk]
  | cons e m ih =>
    by_cases hc : e.1 = ci0 <;> by_cases h : e.1 = ci <;>
      simp_all [updateChunk, lookupChunk, List.find?_cons]

lemma applyEdits_eq_none (q : List (Vec3Q × ℕ)) :
    ∀ (chunks : ChunkMap) (dirty : List ChunkColumn),
      applyEdits chunks dirty q = none ↔
        ∃ e ∈ q, lookupChunk chunks (pos_to_voxel e.1).1 = none := by
  induction q with
  | nil => simp [applyEdits]
  | cons e rest ih =>
    intro chunks dirty
    obtain ⟨pos, tid⟩ := e
    cases h : lookupChunk chunks (pos_to_voxel pos).1 with
    | none =>
      simp only [applyEdits, h]
      exact ⟨fun _ => ⟨(pos, tid), List.mem_cons_self _ _, h⟩, fun _ => trivial⟩
    | some cd =>
      simp only [applyEdits, h, ih, List.mem_cons]
      constructor
      · rintro ⟨f, hf, hnone⟩
        exact ⟨f, Or.inr hf, (lookupChunk_updateChunk_none _ _ _ _ _).1 hnone⟩
      · rintro ⟨f, hf | hf, hnone⟩
        · rw [hf] at hnone
          simp [hnone] at h
        · exact ⟨f, hf, (lookupChunk_updateChunk_none _ _ _ _ _).2 hnone⟩

/-- C1 (counterexample).  The claim asserts that draining an edit queue
containing an edit on a non-resident chunk "completes normally and clears the
queue" with no observable side effect.  With an empty chunk map and one
queued edit at world position `(0.5, 0.5, 0.5)` (owning chunk `(0,0,0)`,
which is not resident), the drain would then return
`some ⟨[], [], []⟩`; instead `handle_voxel_modify_queue` hits the
`chunks.get_mut(..).unwrap()` of `lib.rs` line 454 and panics (`none`). -/
theorem c1_counterexample :
    handle_voxel_modify_queue ⟨[], [(((1 : ℚ)/2, 1/2, 1/2), 0)], []⟩ = none := rfl

/-- C1 (amended).  Draining the edit queue does *not* silently drop edits
whose owning chunk (floor-division of the position by the chunk edge length
16) is not resident: the drain panics (`none`) precisely when the queue holds
at least one such edit, and otherwise completes normally.  Stated for every
edit state: the drain fails if and only if some queued edit's owning chunk is
missing from the chunk map. -/
theorem c1_theorem (st : EditState) :
    handle_voxel_modify_queue st = none ↔
      ∃ e ∈ st.queue, lookupChunk st.chunks (pos_to_voxel e.1).1 = none := by
  unfold handle_voxel_modify_queue
  rw [Option.map_eq_none']
  exact applyEdits_eq_none st.queue st.chunks st.dirty

/-! ## Claim C9: the raycast result is never empty and starts at the origin voxel -/

/-- C9.  For every origin, direction and range, the first element of
`get_intersected_voxels` is the componentwise floor of the origin (the voxel
containing the ray origin), and the returned sequence is never empty: the
start voxel is pushed before the traversal loop runs. -/
theorem c9_theorem (s d : Vec3Q) (r : ℚ) :
    (get_intersected_voxels s d r).head? = some (to_voxel_position s) ∧
      get_intersected_voxels s d r ≠ [] := by
  unfold get_intersected_voxels
  exact rayLoop_singleton_head _ _ _ _ _ _ _ _ _ _ _

/-! ## Claim C5: axis-aligned rays -/

/-- C5 (counterexample).  The claim states that for an axis-aligned ray the
returned sequence has length `floor(max_range)`.  For origin
`(0.5, 0.5, 0.5)`, direction `(1, 0, 0)` and range `0.5`, the iteration cap
`range as usize * 3` is `0`, so the loop never runs and the result is the
single start voxel: length 1, while `floor(0.5) = 0`. -/
theorem c5_counterexample :
    ¬ ((get_intersected_voxels ((1 : ℚ)/2, 1/2, 1/2) (1, 0, 0) (1/2)).length
        = (⌊((1 : ℚ)/2)⌋).toNat) := by
  decide

/-- C5 (amended).  For the axis-aligned ray with origin `(0.5, 0.5, 0.5)` and
direction `(1, 0, 0)` and every integer range `1 ≤ r ≤ 30`, the raycaster
returns exactly the voxel coordinates `(0,0,0), (1,0,0), …, (r-1,0,0)`: the
sequence advances monotonically by 1 per step along the x axis and has length
`r = floor(r)`.  (The range-5 instance of the original claim is the witness
below; for non-integer ranges the length-`floor(max_range)` clause of the
original claim fails, see the counterexample.) -/
theorem c5_theorem : ∀ r : ℕ, r < 31 → 1 ≤ r →
    get_intersected_voxels ((1 : ℚ)/2, 1/2, 1/2) (1, 0, 0) (r : ℚ) =
      (List.range r).map (fun k => ((k : ℚ), 0, 0)) := by
  decide

/-- C5 (witness): the concrete example from the claim, via `c5_theorem` at
range 5: voxels `(0,0,0), (1,0,0), (2,0,0), (3,0,0), (4,0,0)`. -/
theorem c5_witness :
    get_intersected_voxels ((1 : ℚ)/2, 1/2, 1/2) (1, 0, 0) ((5 : ℕ) : ℚ) =
      (List.range 5).map (fun k => ((k : ℚ), 0, 0)) :=
  c5_theorem 5 (by decide) (by decide)

/-! ## Claim C4: generation is deterministic -/

/-- C4.  Chunk generation is a pure function of the chunk coordinate and the
(fixed-seed) noise function: two generation calls with the same coordinate
yield identical voxel grids (and identical `ChunkData` values).  The source
reads no other state: `Perlin::new(123)` is reconstructed with the constant
seed on every call and the grid is filled from the coordinate alone. -/
theorem c4_theorem (perlin : ℚ → ℚ → ℚ) (ci : ChunkIndex) (g1 g2 : ChunkData)
    (h1 : g1 = ChunkData.new perlin ci) (h2 : g2 = ChunkData.new perlin ci) :
    g1.voxels = g2.voxels ∧ g1 = g2 := by
  subst h1
  subst h2
  exact ⟨rfl, rfl⟩

/-- C4 (witness): two generation calls at the origin chunk agree. -/
theorem c4_witness :
    (ChunkData.new (fun _ _ => 0) ⟨0, 0, 0⟩).voxels =
        (ChunkData.new (fun _ _ => 0) ⟨0, 0, 0⟩).voxels ∧
      ChunkData.new (fun _ _ => 0) ⟨0, 0, 0⟩ = ChunkData.new (fun _ _ => 0) ⟨0, 0, 0⟩ :=
  c4_theorem (fun _ _ => 0) ⟨0, 0, 0⟩ _ _ rfl rfl

/-! ## Claim C8: the generated grid's solid/empty rule -/

/-- C8.  In the grid produced by chunk generation for coordinate `ci`, the
voxel at local index `(x, y, z)` is solid (1) iff the world altitude
`ci.y * 16 + y` is at or below the terrain height obtained by linearly
mapping the noise value at the cell's world horizontal position (scaled by
`WAVE_LENGTH = 64`) from `[-1, 1]` onto the altitude bounds 48 and 128;
otherwise it is 0.  The hypothesis is the documented `[-1, 1]` output range
of the noise function at the sampled point; it covers the saturating
`chunk_offset.y as usize` cast for chunks below altitude 0, where both the
code's comparison and the claim's comparison are vacuously "solid" because
the terrain height is at least 48. -/
theorem c8_theorem (perlin : ℚ → ℚ → ℚ) (ci : ChunkIndex) (x y z : ℕ)
    (hx : x < 16) (hy : y < 16) (hz : z < 16)
    (hrange : -1 ≤ perlin (((x : ℚ) + (ci.x : ℚ) * 16) / 64) (((z : ℚ) + (ci.z : ℚ) * 16) / 64) ∧
      perlin (((x : ℚ) + (ci.x : ℚ) * 16) / 64) (((z : ℚ) + (ci.z : ℚ) * 16) / 64) ≤ 1) :
    (ChunkData.new perlin ci).voxels x y z =
      if 16 * ci.y + (y : ℤ) ≤
          landHeight perlin (((x : ℚ) + (ci.x : ℚ) * 16) / 64)
            (((z : ℚ) + (ci.z : ℚ) * 16) / 64) then 1 else 0 := by
  have h48 : 48 ≤ landHeight perlin (((x : ℚ) + (ci.x : ℚ) * 16) / 64)
      (((z : ℚ) + (ci.z : ℚ) * 16) / 64) := landHeight_ge _ _ _ hrange.1
  show (if ((y : ℤ) + ((16 * ci.y).toNat : ℤ)) > _ then 0 else 1) = _
  rcases le_or_lt 0 ci.y with hpos | hneg
  · rw [Int.toNat_of_nonneg (by omega)]
    by_cases hc : 16 * ci.y + (y : ℤ) ≤
        landHeight perlin (((x : ℚ) + (ci.x : ℚ) * 16) / 64)
          (((z : ℚ) + (ci.z : ℚ) * 16) / 64)
    · rw [if_pos hc, if_neg (by omega)]
    · rw [if_pos (by omega), if_neg hc]
  · have ht : ((16 * ci.y).toNat : ℤ) = 0 := by
      have : 16 * ci.y < 0 := by omega
      omega
    rw [ht]
    rw [if_neg (by omega), if_pos (by omega)]

/-- C8 (witness): the constant-zero noise function at the origin chunk. -/
theorem c8_witness :
    (ChunkData.new (fun _ _ => 0) ⟨0, 0, 0⟩).voxels 0 0 0 =
      if 16 * (0 : ℤ) + ((0 : ℕ) : ℤ) ≤
          landHeight (fun _ _ => 0) ((((0 : ℕ) : ℚ) + ((0 : ℤ) : ℚ) * 16) / 64)
            ((((0 : ℕ) : ℚ) + ((0 : ℤ) : ℚ) * 16) / 64) then 1 else 0 :=
  c8_theorem (fun _ _ => 0) ⟨0, 0, 0⟩ 0 0 0 (by decide) (by decide) (by decide)
    (by norm_num)

/-! ## Claim C6: streaming around the observer -/

/-- `load_chunks_around` from `lib.rs` (350-382): for every offset
`(dx, dz)` with `-sight_range ≤ dx, dz ≤ sight_range` and every `y` in
`0..CHUNK_LIMIT_Y`, request (spawn a `Chunk` entity for) the chunk coordinate
`(observer.x + dx, y, observer.z + dz)` unless it is already resident
(`!voxel_data.chunks.contains_key(..)`).  The returned list is the spawn list
in source iteration order. -/
def load_chunks_around (obs : ChunkIndex) (sight_range : ℕ) (chunks : ChunkMap) :
    List ChunkIndex :=
  (List.range (2 * sight_range + 1)).flatMap (fun i =>
    (List.range (2 * sight_range + 1)).flatMap (fun k =>
      (List.range CHUNK_LIMIT_Y).filterMap (fun (y : ℕ) =>
        let idx : ChunkIndex :=
          ⟨obs.x + (i : ℤ) - (sight_range : ℤ), (y : ℤ), obs.z + (k : ℤ) - (sight_range : ℤ)⟩
        if (lookupChunk chunks idx).isNone then some idx else none)))

/-- One `chunks.entry(index).or_insert_with(..)` step of `gen_chunks_data`
(`lib.rs` 281-293): if the coordinate is absent, generate its `ChunkData` and
mark its column for remesh. -/
def genStep (perlin : ℚ → ℚ → ℚ) (acc : ChunkMap × List ChunkColumn)
    (idx : ChunkIndex) : ChunkMap × List ChunkColumn :=
  match lookupChunk acc.1 idx with
  | some _ => acc
  | none => (acc.1 ++ [(idx, ChunkData.new perlin idx)], insertColumn ⟨idx.x, idx.z⟩ acc.2)

/-- `gen_chunks_data` from `lib.rs` (275-294): run `genStep` over every
requested `Chunk` entity. -/
def gen_chunks_data (perlin : ℚ → ℚ → ℚ) (spawned : List ChunkIndex)
    (chunks : ChunkMap) (dirty : List ChunkColumn) : ChunkMap × List ChunkColumn :=
  spawned.foldl (genStep perlin) (chunks, dirty)

lemma lookupChunk_append_single (m : ChunkMap) (idx : ChunkIndex) (cd : ChunkData)
    (ci : ChunkIndex) :
    (lookupChunk (m ++ [(idx, cd)]) ci).isSome ↔
      (lookupChunk m ci).isSome ∨ ci = idx := by
  induction m with
  | nil =>
    by_cases h : idx = ci <;> simp [lookupChunk, List.find?, h] <;> simp [eq_comm, h]
  | cons e m ih =>
    by_cases h : e.1 = ci <;> simp [lookupChunk, List.find?_cons, h] at ih ⊢ <;>
      simpa [lookupChunk, h] using ih

lemma genStep_lookup (perlin : ℚ → ℚ → ℚ) (acc : ChunkMap × List ChunkColumn)
    (idx ci : ChunkIndex) :
    (lookupChunk (genStep perlin acc idx).1 ci).isSome ↔
      (lookupChunk acc.1 ci).isSome ∨ ci = idx := by
  unfold genStep
  cases h : lookupChunk acc.1 idx with
  | some cd =>
    constructor
    · exact Or.inl
    · rintro (hs | rfl)
      · exact hs
      · simp [h]
  | none => exact lookupChunk_append_single _ _ _ _

lemma foldl_genStep_mem (perlin : ℚ → ℚ → ℚ) (spawned : List ChunkIndex) :
    ∀ (st : ChunkMap × List ChunkColumn) (ci : ChunkIndex),
      (lookupChunk (List.foldl (genStep perlin) st spawned).1 ci).isSome ↔
        (lookupChunk st.1 ci).isSome ∨ ci ∈ spawned := by
  induction spawned with
  | nil => simp
  | cons idx rest ih =>
    intro st ci
    rw [List.foldl_cons, ih, genStep_lookup]
    simp only [List.mem_cons]
    tauto

lemma mem_load_chunks_around (obs : ChunkIndex) (r : ℕ) (chunks : ChunkMap)
    (ci : ChunkIndex) :
    ci ∈ load_chunks_around obs r chunks ↔
      (obs.x - r ≤ ci.x ∧ ci.x ≤ obs.x + r ∧ 0 ≤ ci.y ∧ ci.y < 16 ∧
        obs.z - r ≤ ci.z ∧ ci.z ≤ obs.z + r ∧ (lookupChunk chunks ci).isNone) := by
  simp only [load_chunks_around, List.mem_flatMap, List.mem_filterMap, List.mem_range,
    CHUNK_LIMIT_Y]
  constructor
  · rintro ⟨i, hi, k, hk, y, hy, h⟩
    split_ifs at h with hc
    · obtain rfl := Option.some.inj h
      refine ⟨?_, ?_, ?_, ?_, ?_, ?_, hc⟩ <;> dsimp only <;> omega
  · rintro ⟨h1, h2, h3, h4, h5, h6, h7⟩
    refine ⟨(ci.x - obs.x + r).toNat, by omega, (ci.z - obs.z + r).toNat, by omega,
      ci.y.toNat, by omega, ?_⟩
    have hx : obs.x + (((ci.x - obs.x + r).toNat : ℕ) : ℤ) - (r : ℤ) = ci.x := by omega
    have hz : obs.z + (((ci.z - obs.z + r).toNat : ℕ) : ℤ) - (r : ℤ) = ci.z := by omega
    have hyy : ((ci.y.toNat : ℕ) : ℤ) = ci.y := by omega
    simp only [hx, hz, hyy]
    have heta : (⟨ci.x, ci.y, ci.z⟩ : ChunkIndex) = ci := rfl
    rw [heta, if_pos h7]

/-- C6.  If the chunk map is initially empty and the observer is in chunk
`(0,0,0)` with `sight_range = 1`, then after one `load_chunks_around` +
`gen_chunks_data` pass the chunk map contains exactly the chunk coordinates
with Chebyshev horizontal distance `max(|x|, |z|) ≤ 1` and `0 ≤ y < 16` (the
full vertical chunk-height limit), and no entry at any other coordinate. -/
theorem c6_theorem (perlin : ℚ → ℚ → ℚ) (ci : ChunkIndex) :
    (lookupChunk
        (gen_chunks_data perlin (load_chunks_around ⟨0, 0, 0⟩ 1 []) [] []).1 ci).isSome ↔
      (max |ci.x| |ci.z| ≤ 1 ∧ 0 ≤ ci.y ∧ ci.y < 16) := by
  rw [gen_chunks_data, foldl_genStep_mem, mem_load_chunks_around]
  simp only [lookupChunk, List.find?_nil, Option.map_none', Option.isSome_none,
    Option.isNone_none, max_le_iff, abs_le]
  constructor
  · rintro (h | ⟨h1, h2, h3, h4, h5, h6, -⟩)
    · exact absurd h (by simp)
    · exact ⟨⟨by omega, by omega⟩, by omega, by omega⟩
  · rintro ⟨⟨⟨hx1, hx2⟩, hz1, hz2⟩, hy1, hy2⟩
    exact Or.inr ⟨by omega, by omega, by omega, by omega, by omega, by omega, trivial⟩

/-! ## Mesh buffers -/

/-- `FaceDirection` from `voxel.rs` (enum order `+x:0 +y:1 +z:2 -x:3 -y:4 -z:5`). -/
inductive FaceDirection where
  | Right
  | Top
  | Front
  | Left
  | Bottom
  | Back
deriving DecidableEq, Repr

/-- The `CORNORS` cube-corner table from `voxel.rs` (20-29), as a function of
the corner array index. -/
def CORNORS : ℕ → Vec3Q
  | 0 => (1, 1, 1)
  | 1 => (0, 1, 1)
  | 2 => (0, 0, 1)
  | 3 => (1, 0, 1)
  | 4 => (0, 1, 0)
  | 5 => (1, 1, 0)
  | 6 => (1, 0, 0)
  | 7 => (0, 0, 0)
  | _ => (0, 0, 0)

/-- The `NORMALS` table from `voxel.rs` (32-39), indexed by face direction. -/
def NORMALS : FaceDirection → Vec3Q
  | .Right => (1, 0, 0)
  | .Top => (0, 1, 0)
  | .Front => (0, 0, 1)
  | .Left => (-1, 0, 0)
  | .Bottom => (0, -1, 0)
  | .Back => (0, 0, -1)

/-- The `UVS` table from `voxel.rs` (41-46), in push order. -/
def UVS : List (ℚ × ℚ) := [(1, 0), (0, 0), (0, 1), (1, 1)]

/-- `CubeFace` from `voxel.rs`: four corner indices plus the face normal. -/
structure CubeFace where
  cornor_indices : List ℕ
  normal_index : FaceDirection

def FRONT_FACE : CubeFace := ⟨[0, 1, 2, 3], .Front⟩

def BACK_FACE : CubeFace := ⟨[4, 5, 6, 7], .Back⟩

def LEFT_FACE : CubeFace := ⟨[1, 4, 7, 2], .Left⟩

def RIGHT_FACE : CubeFace := ⟨[5, 0, 3, 6], .Right⟩

def TOP_FACE : CubeFace := ⟨[5, 4, 1, 0], .Top⟩

def BOTTOM_FACE : CubeFace := ⟨[7, 6, 3, 2], .Bottom⟩

/-- `MeshData` from `voxel.rs` (191-197).  Indices are `u32` in the source;
they are modelled as `ℕ` (the vertex counts reachable by the embedded mesh
producers stay far below `2³²`, so the `usize → u32` cast in `add_face` is
lossless; the one accumulation that could wrap, in `combine_meshes`, keeps
its explicit modulus). -/
structure MeshData where
  positions : List Vec3Q
  indices : List ℕ
  normals : List Vec3Q
  uvs : List (ℚ × ℚ)
deriving Repr

/-- `MeshData::new`. -/
def MeshData.new : MeshData := ⟨[], [], [], []⟩

/-- `add_face` from `voxel.rs` (210-227): push the four corners of a face
(scaled componentwise by `size` and translated by `offset`), their common
normal, the four UVs, and the six indices of the two face triangles. -/
def add_face (mesh : MeshData) (face : CubeFace) (offset size : Vec3Q) : MeshData :=
  let index_start := mesh.positions.length
  { positions := mesh.positions ++ face.cornor_indices.map (fun v => CORNORS v * size + offset)
    normals := mesh.normals ++ face.cornor_indices.map (fun _ => NORMALS face.normal_index)
    uvs := mesh.uvs ++ UVS
    indices := mesh.indices ++
      [index_start, index_start + 1, index_start + 2,
       index_start + 2, index_start + 3, index_start] }

/-! ## Claim C7: `combine_meshes` -/

/-- `2³²`: modulus of the `u32` index arithmetic in `combine_meshes`. -/
def U32MOD : ℕ := 2 ^ 32

/-- One iteration of the `combine_meshes` loop (`voxel.rs` 629-637):
concatenate the buffers, shift the source indices by the running
vertex-count offset (`u32` addition), and advance the offset. -/
def combineStep (acc : MeshData × ℕ) (mesh : MeshData) : MeshData × ℕ :=
  ({ positions := acc.1.positions ++ mesh.positions
     normals := acc.1.normals ++ mesh.normals
     uvs := acc.1.uvs ++ mesh.uvs
     indices := acc.1.indices ++ mesh.indices.map (fun i => (i + acc.2) % U32MOD) },
   (acc.2 + mesh.positions.length) % U32MOD)

/-- `combine_meshes` from `voxel.rs` (626-639). -/
def combine_meshes (meshes : List MeshData) : MeshData :=
  (meshes.foldl combineStep (MeshData.new, 0)).1

/-- The index list `combine_meshes` is specified to produce ("rewrites each
source buffer's indices by adding a running vertex-count offset"), written
from the spec's words with unbounded arithmetic. -/
def combineIndicesSpec : ℕ → List MeshData → List ℕ
  | _, [] => []
  | off, m :: rest => m.indices.map (· + off) ++ combineIndicesSpec (off + m.positions.length) rest

lemma combine_foldl_facts (ms : List MeshData) :
    ∀ acc : MeshData × ℕ, acc.2 = acc.1.positions.length →
      acc.2 + (ms.map (fun m => m.positions.length)).sum < U32MOD →
      (∀ m ∈ ms, ∀ i ∈ m.indices, i < m.positions.length) →
      (ms.foldl combineStep acc).1.positions.length
          = acc.1.positions.length + (ms.map (fun m => m.positions.length)).sum ∧
        (ms.foldl combineStep acc).1.indices
          = acc.1.indices ++ combineIndicesSpec acc.2 ms ∧
        (ms.foldl combineStep acc).2
          = acc.2 + (ms.map (fun m => m.positions.length)).sum ∧
        (ms.foldl combineStep acc).1.normals.length
          = acc.1.normals.length + (ms.map (fun m => m.normals.length)).sum ∧
        (ms.foldl combineStep acc).1.uvs.length
          = acc.1.uvs.length + (ms.map (fun m => m.uvs.length)).sum ∧
        (ms.foldl combineStep acc).1.indices.length
          = acc.1.indices.length + (ms.map (fun m => m.indices.length)).sum ∧
        (∀ i ∈ (ms.foldl combineStep acc).1.indices,
          i ∈ acc.1.indices ∨ i < (ms.foldl combineStep acc).2) := by
  induction ms with
  | nil =>
    intro acc hoff hsum hb
    refine ⟨by simp, by simp [combineIndicesSpec], by simp, by simp, by simp, by simp, ?_⟩
    exact fun i hi => Or.inl hi
  | cons m rest ih =>
    intro acc hoff hsum hb
    have hlen : m.positions.length + acc.2 < U32MOD := by
      simp only [List.map_cons, List.sum_cons] at hsum
      omega
    have hshift2 : m.indices.map (fun i => (i + acc.2) % U32MOD)
        = m.indices.map (fun i => i + acc.2) := by
      refine List.map_congr_left (fun i hi => ?_)
      have := hb m (List.mem_cons_self _ _) i hi
      exact Nat.mod_eq_of_lt (by omega)
    have hoff2 : (acc.2 + m.positions.length) % U32MOD = acc.2 + m.positions.length :=
      Nat.mod_eq_of_lt (by omega)
    have hstep2 : (combineStep acc m).2 = acc.2 + m.positions.length := by
      simp [combineStep, hoff2]
    have hstep_pos : (combineStep acc m).1.positions.length
        = acc.1.positions.length + m.positions.length := by
      simp [combineStep]
    have hstep_norm : (combineStep acc m).1.normals.length
        = acc.1.normals.length + m.normals.length := by
      simp [combineStep]
    have hstep_uv : (combineStep acc m).1.uvs.length
        = acc.1.uvs.length + m.uvs.length := by
      simp [combineStep]
    have hstep_idx : (combineStep acc m).1.indices
        = acc.1.indices ++ m.indices.map (fun i => i + acc.2) := by
      simp [combineStep, hshift2]
    have hstep_idxlen : (combineStep acc m).1.indices.length
        = acc.1.indices.length + m.indices.length := by
      simp [hstep_idx]
    rw [List.foldl_cons]
    obtain ⟨p1, p2, p3, p4, p5, p6, p7⟩ := ih (combineStep acc m)
      (by rw [hstep2, hstep_pos, hoff])
      (by rw [hstep2]; simp only [List.map_cons, List.sum_cons] at hsum; omega)
      (fun mm hm => hb mm (List.mem_cons_of_mem _ hm))
    refine ⟨?_, ?_, ?_, ?_, ?_, ?_, ?_⟩
    · rw [p1, hstep_pos]
      simp only [List.map_cons, List.sum_cons]
      omega
    · rw [p2, hstep_idx, hstep2, combineIndicesSpec, List.append_assoc]
    · rw [p3, hstep2]
      simp only [List.map_cons, List.sum_cons]
      omega
    · rw [p4, hstep_norm]
      simp only [List.map_cons, List.sum_cons]
      omega
    · rw [p5, hstep_uv]
      simp only [List.map_cons, List.sum_cons]
      omega
    · rw [p6, hstep_idxlen]
      simp only [List.map_cons, List.sum_cons]
      omega
    · intro i hi
      rcases p7 i hi with hmem | hlt
      · rw [hstep_idx] at hmem
        simp only [List.mem_append, List.mem_map] at hmem
        rcases hmem with hmem | ⟨j, hj, rfl⟩
        · exact Or.inl hmem
        · refine Or.inr ?_
          have hjb := hb m (List.mem_cons_self _ _) j hj
          rw [p3, hstep2]
          simp only [List.map_cons, List.sum_cons] at hsum ⊢
          omega
      · exact Or.inr hlt

/-- C7.  For every list of mesh buffers whose indices are within their own
vertex bounds (and whose total vertex count fits in `u32`, so the running
`u32` offset does not wrap), `combine_meshes` returns a buffer whose vertex
count is the sum of the inputs' vertex counts, whose index list is exactly
each input's indices shifted by the running vertex-count offset of the
preceding inputs (in input order, preserving each sub-mesh's triangle
winding), and all of whose indices are within the bounds of the concatenated
vertex array. -/
theorem c7_theorem (ms : List MeshData)
    (hb : ∀ m ∈ ms, ∀ i ∈ m.indices, i < m.positions.length)
    (ht : (ms.map (fun m => m.positions.length)).sum < U32MOD) :
    (combine_meshes ms).positions.length = (ms.map (fun m => m.positions.length)).sum ∧
      (combine_meshes ms).indices = combineIndicesSpec 0 ms ∧
      ∀ i ∈ (combine_meshes ms).indices,
        i < (ms.map (fun m => m.positions.length)).sum := by
  obtain ⟨p1, p2, p3, _, _, _, p7⟩ :=
    combine_foldl_facts ms (MeshData.new, 0) rfl (by simpa using ht) hb
  refine ⟨by simpa [MeshData.new] using p1, by simpa [MeshData.new] using p2, ?_⟩
  intro i hi
  rcases p7 i hi with hmem | hlt
  · simp [MeshData.new] at hmem
  · rw [p3] at hlt
    simpa using hlt

/-- C7 (witness): two tiny meshes, one triangle each. -/
theorem c7_witness :
    (combine_meshes
        [⟨[((0:ℚ),(0:ℚ),(0:ℚ)), (1,0,0), (0,1,0)], [0, 1, 2], [], []⟩,
         ⟨[((0:ℚ),(0:ℚ),(1:ℚ)), (1,0,1)], [1, 0, 1], [], []⟩]).positions.length
        = ([⟨[((0:ℚ),(0:ℚ),(0:ℚ)), (1,0,0), (0,1,0)], [0, 1, 2], [], []⟩,
            (⟨[((0:ℚ),(0:ℚ),(1:ℚ)), (1,0,1)], [1, 0, 1], [], []⟩ : MeshData)].map
              (fun m => m.positions.length)).sum ∧
      (combine_meshes
          [⟨[((0:ℚ),(0:ℚ),(0:ℚ)), (1,0,0), (0,1,0)], [0, 1, 2], [], []⟩,
           ⟨[((0:ℚ),(0:ℚ),(1:ℚ)), (1,0,1)], [1, 0, 1], [], []⟩]).indices
        = combineIndicesSpec 0
            [⟨[((0:ℚ),(0:ℚ),(0:ℚ)), (1,0,0), (0,1,0)], [0, 1, 2], [], []⟩,
             ⟨[((0:ℚ),(0:ℚ),(1:ℚ)), (1,0,1)], [1, 0, 1], [], []⟩] ∧
      ∀ i ∈ (combine_meshes
          [⟨[((0:ℚ),(0:ℚ),(0:ℚ)), (1,0,0), (0,1,0)], [0, 1, 2], [], []⟩,
           ⟨[((0:ℚ),(0:ℚ),(1:ℚ)), (1,0,1)], [1, 0, 1], [], []⟩]).indices,
        i < ([⟨[((0:ℚ),(0:ℚ),(0:ℚ)), (1,0,0), (0,1,0)], [0, 1, 2], [], []⟩,
              (⟨[((0:ℚ),(0:ℚ),(1:ℚ)), (1,0,1)], [1, 0, 1], [], []⟩ : MeshData)].map
                (fun m => m.positions.length)).sum :=
  c7_theorem _ (by decide) (by decide)

/-! ## The greedy mesher: merged-extent passes

`greedy_meshing` (`voxel.rs` 279-581) first computes a per-voxel extent array
`sizes` (`Vec3::ONE` initially, `Vec3::ZERO` marking absorbed cells) in three
passes: X-merge, then Z-merge, then Y-merge.  Each pass scans its axis upward
from 1 and touches only the line of cells it is scanning, so the 3-D pass is
the per-line loop run on every line; `passUp step s k` is the loop
`(1..=k).for_each(|i| .. step .. )` over one line with state `s`.  The
extents are small integer-valued `f32` in the source (`≤ 16`), hence exact;
`Size3` models the triple with naturals. -/

structure Size3 where
  x : ℕ
  y : ℕ
  z : ℕ
deriving DecidableEq, Repr

/-- `Vec3::ZERO`. -/
def Size3.zero : Size3 := ⟨0, 0, 0⟩

/-- `Vec3::ONE`. -/
def Size3.one : Size3 := ⟨1, 1, 1⟩

/-- The voxel grid of one chunk, as read by the meshers. -/
abbrev Vox : Type := ℕ → ℕ → ℕ → ℕ

/-- `can_merge_mesh` from `voxel.rs` (229-231). -/
def can_merge_mesh (voxel1 voxel2 : ℕ) : Prop := voxel1 = voxel2

instance (a b : ℕ) : Decidable (can_merge_mesh a b) := by
  unfold can_merge_mesh
  infer_instance

/-- Pointwise update of a line of sizes. -/
def updLine (s : ℕ → Size3) (i : ℕ) (a : Size3) : ℕ → Size3 :=
  fun j => if j = i then a else s j

/-- One X-merge step (`voxel.rs` 284-289) at target `x ≥ 1` on one
`(y, z)` line: if the voxel equals its `x-1` neighbor, fold the neighbor's
accumulated x-extent into `x` and zero the neighbor. -/
def xstep (vl : ℕ → ℕ) (s : ℕ → Size3) (x : ℕ) : ℕ → Size3 :=
  if can_merge_mesh (vl x) (vl (x - 1)) then
    updLine (updLine s x ⟨(s x).x + (s (x - 1)).x, (s x).y, (s x).z⟩) (x - 1) Size3.zero
  else s

/-- `(1..=k).for_each(..)` over one line. -/
def passUp (step : (ℕ → Size3) → ℕ → (ℕ → Size3)) (s : ℕ → Size3) : ℕ → (ℕ → Size3)
  | 0 => s
  | k + 1 => step (passUp step s k) (k + 1)

/-- The sizes array after the X-merge pass (`voxel.rs` 280-291). -/
def sizesX (c : Vox) (x y z : ℕ) : Size3 :=
  passUp (xstep (fun i => c i y z)) (fun _ => Size3.one) 15 x

/-- One Z-merge step (`voxel.rs` 293-307) at target `z ≥ 1` on one
`(x, y)` line: skip if either cell is absorbed; merge when the voxels are
equal and the x-extents agree. -/
def zstep (vl : ℕ → ℕ) (s : ℕ → Size3) (z : ℕ) : ℕ → Size3 :=
  if s z = Size3.zero ∨ s (z - 1) = Size3.zero then s
  else if can_merge_mesh (vl z) (vl (z - 1)) ∧ (s (z - 1)).x = (s z).x then
    updLine (updLine s z ⟨(s z).x, (s z).y, (s z).z + (s (z - 1)).z⟩) (z - 1) Size3.zero
  else s

/-- The sizes array after the X- and Z-merge passes. -/
def sizesZ (c : Vox) (x y z : ℕ) : Size3 :=
  passUp (zstep (fun k => c x y k)) (fun k => sizesX c x y k) 15 z

/-- One Y-merge step (`voxel.rs` 309-324) at target `y ≥ 1` on one
`(x, z)` line: skip if either cell is absorbed; merge when the voxels are
equal and both the x- and z-extents agree. -/
def ystep (vl : ℕ → ℕ) (s : ℕ → Size3) (y : ℕ) : ℕ → Size3 :=
  if s y = Size3.zero ∨ s (y - 1) = Size3.zero then s
  else if can_merge_mesh (vl y) (vl (y - 1)) ∧ (s (y - 1)).x = (s y).x ∧
      (s (y - 1)).z = (s y).z then
    updLine (updLine s y ⟨(s y).x, (s y).y + (s (y - 1)).y, (s y).z⟩) (y - 1) Size3.zero
  else s

/-- The final sizes array (after X-, Z- and Y-merge), as read by the
emission loop of `greedy_meshing`. -/
def sizesFinal (c : Vox) (x y z : ℕ) : Size3 :=
  passUp (ystep (fun k => c x k z)) (fun k => sizesZ c x k z) 15 y

/-! ### Closed forms of the three passes -/

/-- Length of the maximal constant run ending at `x` on one line. -/
def xrunL (vl : ℕ → ℕ) : ℕ → ℕ
  | 0 => 1
  | x + 1 => if vl (x + 1) = vl x then xrunL vl x + 1 else 1

/-- `xrunL` on the `(y, z)` line of a grid. -/
def xrunAt (c : Vox) (y z x : ℕ) : ℕ := xrunL (fun i => c i y z) x

/-- Survivor of the X-merge pass: last cell of its constant x-run. -/
def xsurv (c : Vox) (x y z : ℕ) : Prop := x = 15 ∨ c (x + 1) y z ≠ c x y z

instance (c : Vox) (x y z : ℕ) : Decidable (xsurv c x y z) := by
  unfold xsurv
  infer_instance

/-- The Z-merge condition at target `z ≥ 1`: both cells survived X-merge,
their voxels are equal, and their x-extents agree. -/
def zmerge (c : Vox) (x y z : ℕ) : Prop :=
  xsurv c x y z ∧ xsurv c x y (z - 1) ∧ c x y z = c x y (z - 1) ∧
    xrunAt c y z x = xrunAt c y (z - 1) x

instance (c : Vox) (x y z : ℕ) : Decidable (zmerge c x y z) := by
  unfold zmerge
  infer_instance

/-- The z-extent accumulated at `z` by the Z-merge pass. -/
def zrunAt (c : Vox) (x y : ℕ) : ℕ → ℕ
  | 0 => 1
  | z + 1 => if zmerge c x y (z + 1) then zrunAt c x y z + 1 else 1

/-- Survivor of the X- and Z-merge passes. -/
def zsurv (c : Vox) (x y z : ℕ) : Prop :=
  xsurv c x y z ∧ (z = 15 ∨ ¬ zmerge c x y (z + 1))

instance (c : Vox) (x y z : ℕ) : Decidable (zsurv c x y z) := by
  unfold zsurv
  infer_instance

/-- The Y-merge condition at target `y ≥ 1`. -/
def ymerge (c : Vox) (x y z : ℕ) : Prop :=
  zsurv c x y z ∧ zsurv c x (y - 1) z ∧ c x y z = c x (y - 1) z ∧
    xrunAt c y z x = xrunAt c (y - 1) z x ∧ zrunAt c x y z = zrunAt c x (y - 1) z

instance (c : Vox) (x y z : ℕ) : Decidable (ymerge c x y z) := by
  unfold ymerge
  infer_instance

/-- The y-extent accumulated at `y` by the Y-merge pass. -/
def yrunAt (c : Vox) (x z : ℕ) : ℕ → ℕ
  | 0 => 1
  | y + 1 => if ymerge c x (y + 1) z then yrunAt c x z y + 1 else 1

/-- Survivor of all three passes: the cells with nonzero final extent. -/
def ysurv (c : Vox) (x y z : ℕ) : Prop :=
  zsurv c x y z ∧ (y = 15 ∨ ¬ ymerge c x (y + 1) z)

instance (c : Vox) (x y z : ℕ) : Decidable (ysurv c x y z) := by
  unfold ysurv
  infer_instance

/-- The closed form of the final extents of a surviving cell. -/
def runsAt (c : Vox) (x y z : ℕ) : Size3 :=
  ⟨xrunAt c y z x, yrunAt c x z y, zrunAt c x y z⟩

/-! ### The fold passes compute the closed forms -/

lemma xrunL_pos (vl : ℕ → ℕ) (x : ℕ) : 1 ≤ xrunL vl x := by
  cases x with
  | zero => simp [xrunL]
  | succ n =>
    rw [xrunL]
    split <;> omega

lemma passUp_xstep (vl : ℕ → ℕ) :
    ∀ k i : ℕ, passUp (xstep vl) (fun _ => Size3.one) k i =
      if i < k then (if vl (i + 1) = vl i then Size3.zero else ⟨xrunL vl i, 1, 1⟩)
      else if i = k then ⟨xrunL vl i, 1, 1⟩
      else Size3.one := by
  intro k
  induction k with
  | zero =>
    intro i
    rcases Nat.eq_zero_or_pos i with rfl | hi
    · simp [passUp, xrunL, Size3.one]
    · simp only [passUp, Nat.not_lt_zero, if_false]
      rw [if_neg (by omega)]
  | succ k ih =>
    intro i
    have hprev_succ : passUp (xstep vl) (fun _ => Size3.one) k (k + 1) = Size3.one := by
      rw [ih]
      rw [if_neg (by omega), if_neg (by omega)]
    have hprev_k : passUp (xstep vl) (fun _ => Size3.one) k k = ⟨xrunL vl k, 1, 1⟩ := by
      rw [ih]
      rw [if_neg (by omega), if_pos rfl]
    rw [passUp]
    have hstep : ∀ s : ℕ → Size3,
        xstep vl s (k + 1) =
          if vl (k + 1) = vl k then
            updLine (updLine s (k + 1)
              ⟨(s (k + 1)).x + (s k).x, (s (k + 1)).y, (s (k + 1)).z⟩) k Size3.zero
          else s := by
      intro s
      unfold xstep can_merge_mesh
      rw [show k + 1 - 1 = k from rfl]
    rw [hstep]
    by_cases hm : vl (k + 1) = vl k
    · rw [if_pos hm]
      unfold updLine
      by_cases hik : i = k
      · subst hik
        rw [if_pos rfl, if_pos (by omega), if_pos hm]
      · rw [if_neg hik]
        by_cases hik1 : i = k + 1
        · subst hik1
          rw [if_pos rfl, hprev_succ, hprev_k]
          rw [if_neg (by omega), if_pos rfl]
          show (⟨1 + xrunL vl k, 1, 1⟩ : Size3) = ⟨xrunL vl (k + 1), 1, 1⟩
          rw [show xrunL vl (k + 1) = xrunL vl k + 1 from by rw [xrunL, if_pos hm]]
          rw [Nat.add_comm]
        · rw [if_neg hik1, ih]
          by_cases hlt : i < k
          · rw [if_pos hlt, if_pos (show i < k + 1 by omega)]
          · rw [if_neg hlt, if_neg hik, if_neg (show ¬ i < k + 1 by omega), if_neg hik1]
    · rw [if_neg hm, ih]
      by_cases hlt : i < k
      · rw [if_pos hlt, if_pos (show i < k + 1 by omega)]
      · by_cases hik : i = k
        · subst hik
          rw [if_neg hlt, if_pos rfl, if_pos (show _ < _ + 1 by omega), if_neg hm]
        · rw [if_neg hlt, if_neg hik, if_neg (show ¬ i < k + 1 by omega)]
          by_cases hik1 : i = k + 1
          · subst hik1
            rw [if_pos rfl]
            show Size3.one = ⟨xrunL vl (k + 1), 1, 1⟩
            rw [show xrunL vl (k + 1) = 1 from by rw [xrunL, if_neg hm]]
            rfl
          · rw [if_neg hik1]

lemma sizesX_eq (c : Vox) (x y z : ℕ) (hx : x ≤ 15) :
    sizesX c x y z =
      if xsurv c x y z then ⟨xrunAt c y z x, 1, 1⟩ else Size3.zero := by
  unfold sizesX xrunAt xsurv
  rw [passUp_xstep]
  rcases Nat.lt_or_ge x 15 with hlt | hge
  · rw [if_pos hlt]
    by_cases hm : c (x + 1) y z = c x y z
    · rw [if_pos hm, if_neg (by simp [hm]; omega)]
    · rw [if_neg hm, if_pos (Or.inr hm)]
  · have hx15 : x = 15 := by omega
    subst hx15
    rw [if_neg (by omega), if_pos rfl, if_pos (Or.inl rfl)]

lemma xrunAt_pos (c : Vox) (y z x : ℕ) : 1 ≤ xrunAt c y z x := xrunL_pos _ _

lemma zrunAt_pos (c : Vox) (x y z : ℕ) : 1 ≤ zrunAt c x y z := by
  cases z with
  | zero => simp [zrunAt]
  | succ n =>
    rw [zrunAt]
    split <;> omega

lemma yrunAt_pos (c : Vox) (x z y : ℕ) : 1 ≤ yrunAt c x z y := by
  cases y with
  | zero => simp [yrunAt]
  | succ n =>
    rw [yrunAt]
    split <;> omega

lemma run_ne_zero (a b c : ℕ) (ha : 1 ≤ a) : (⟨a, b, c⟩ : Size3) ≠ Size3.zero := by
  intro h
  rw [Size3.zero, Size3.mk.injEq] at h
  omega

lemma passUp_zstep (c : Vox) (x y : ℕ) (hx : x ≤ 15) :
    ∀ k, k ≤ 15 → ∀ i,
      passUp (zstep (fun j => c x y j)) (fun j => sizesX c x y j) k i =
        if i < k then
          (if zmerge c x y (i + 1) ∨ ¬ xsurv c x y i then Size3.zero
           else ⟨xrunAt c y i x, 1, zrunAt c x y i⟩)
        else if i = k then
          (if xsurv c x y i then ⟨xrunAt c y i x, 1, zrunAt c x y i⟩ else Size3.zero)
        else sizesX c x y i := by
  intro k
  induction k with
  | zero =>
    intro _ i
    rcases Nat.eq_zero_or_pos i with rfl | hi
    · simp only [passUp, Nat.not_lt_zero, if_false, if_pos rfl]
      rw [sizesX_eq c x y 0 hx]
      rfl
    · simp only [passUp, Nat.not_lt_zero, if_false]
      rw [if_neg (by omega)]
  | succ k ih =>
    intro hk i
    have ihh := ih (by omega)
    have hp_succ : passUp (zstep (fun j => c x y j)) (fun j => sizesX c x y j) k (k + 1)
        = sizesX c x y (k + 1) := by
      rw [ihh]
      rw [if_neg (by omega), if_neg (by omega)]
    have hp_k : passUp (zstep (fun j => c x y j)) (fun j => sizesX c x y j) k k
        = if xsurv c x y k then ⟨xrunAt c y k x, 1, zrunAt c x y k⟩ else Size3.zero := by
      rw [ihh]
      rw [if_neg (by omega), if_pos rfl]
    have hx1 : sizesX c x y (k + 1)
        = if xsurv c x y (k + 1) then ⟨xrunAt c y (k + 1) x, 1, 1⟩ else Size3.zero :=
      sizesX_eq c x y (k + 1) hx
    rw [passUp]
    have hstep : ∀ s : ℕ → Size3,
        zstep (fun j => c x y j) s (k + 1) =
          if s (k + 1) = Size3.zero ∨ s k = Size3.zero then s
          else if c x y (k + 1) = c x y k ∧ (s k).x = (s (k + 1)).x then
            updLine (updLine s (k + 1)
              ⟨(s (k + 1)).x, (s (k + 1)).y, (s (k + 1)).z + (s k).z⟩) k Size3.zero
          else s := by
      intro s
      unfold zstep can_merge_mesh
      rw [show k + 1 - 1 = k from rfl]
    rw [hstep]
    by_cases hA : xsurv c x y (k + 1)
    · by_cases hB : xsurv c x y k
      · have hs1 : passUp (zstep (fun j => c x y j)) (fun j => sizesX c x y j) k (k + 1)
            = ⟨xrunAt c y (k + 1) x, 1, 1⟩ := by rw [hp_succ, hx1, if_pos hA]
        have hs0 : passUp (zstep (fun j => c x y j)) (fun j => sizesX c x y j) k k
            = ⟨xrunAt c y k x, 1, zrunAt c x y k⟩ := by rw [hp_k, if_pos hB]
        rw [if_neg (by
          rw [hs1, hs0]
          push_neg
          exact ⟨run_ne_zero _ _ _ (xrunAt_pos _ _ _ _),
            run_ne_zero _ _ _ (xrunAt_pos _ _ _ _)⟩)]
        by_cases hM : c x y (k + 1) = c x y k ∧ xrunAt c y k x = xrunAt c y (k + 1) x
        · have hzm : zmerge c x y (k + 1) := by
            refine ⟨hA, by simpa using hB, by simpa using hM.1, by simpa using hM.2.symm⟩
          rw [if_pos (by rw [hs1, hs0]; exact ⟨hM.1, hM.2⟩)]
          unfold updLine
          by_cases hik : i = k
          · subst hik
            rw [if_pos rfl, if_pos (show i < i + 1 by omega), if_pos (Or.inl hzm)]
          · rw [if_neg hik]
            by_cases hik1 : i = k + 1
            · subst hik1
              rw [if_pos rfl, hs1, hs0]
              rw [if_neg (by omega), if_pos rfl, if_pos hA]
              show (⟨xrunAt c y (k + 1) x, 1, 1 + zrunAt c x y k⟩ : Size3) = _
              rw [show zrunAt c x y (k + 1) = zrunAt c x y k + 1 from by
                rw [zrunAt, if_pos hzm]]
              rw [Nat.add_comm 1 (zrunAt c x y k)]
            · rw [if_neg hik1, ihh]
              by_cases hlt : i < k
              · rw [if_pos hlt, if_pos (show i < k + 1 by omega)]
              · rw [if_neg hlt, if_neg hik, if_neg (show ¬ i < k + 1 by omega),
                  if_neg hik1]
        · have hnzm : ¬ zmerge c x y (k + 1) := by
            intro hzm
            exact hM ⟨by simpa using hzm.2.2.1, by simpa using hzm.2.2.2.symm⟩
          rw [if_neg (by rw [hs1, hs0]; simpa using hM), ihh]
          by_cases hlt : i < k
          · rw [if_pos hlt, if_pos (show i < k + 1 by omega)]
          · by_cases hik : i = k
            · subst hik
              rw [if_neg hlt, if_pos rfl, if_pos (show _ < _ + 1 by omega)]
              rw [if_pos hB, if_neg (by simpa [hnzm] using hB)]
            · rw [if_neg hlt, if_neg hik]
              by_cases hik1 : i = k + 1
              · subst hik1
                rw [if_neg (show ¬ k + 1 < k + 1 by omega),
                  if_pos (show k + 1 = k + 1 from rfl), hx1]
                have hz1 : zrunAt c x y (k + 1) = 1 := by rw [zrunAt, if_neg hnzm]
                rw [hz1]
              · rw [if_neg (show ¬ i < k + 1 by omega), if_neg hik1]
      · have hnzm : ¬ zmerge c x y (k + 1) := by
          intro hzm
          exact hB (by simpa using hzm.2.1)
        rw [if_pos (by rw [hp_k, if_neg hB]; exact Or.inr rfl), ihh]
        by_cases hlt : i < k
        · rw [if_pos hlt, if_pos (show i < k + 1 by omega)]
        · by_cases hik : i = k
          · subst hik
            rw [if_neg hlt, if_pos rfl, if_pos (show _ < _ + 1 by omega)]
            rw [if_neg hB, if_pos (by simp [hB])]
          · rw [if_neg hlt, if_neg hik]
            by_cases hik1 : i = k + 1
            · subst hik1
              rw [if_neg (show ¬ k + 1 < k + 1 by omega),
                if_pos (show k + 1 = k + 1 from rfl), hx1]
              have hz1 : zrunAt c x y (k + 1) = 1 := by rw [zrunAt, if_neg hnzm]
              rw [hz1]
            · rw [if_neg (show ¬ i < k + 1 by omega), if_neg hik1]
    · have hnzm : ¬ zmerge c x y (k + 1) := by
        intro hzm
        exact hA hzm.1
      rw [if_pos (by rw [hp_succ, hx1, if_neg hA]; exact Or.inl rfl), ihh]
      by_cases hlt : i < k
      · rw [if_pos hlt, if_pos (show i < k + 1 by omega)]
      · by_cases hik : i = k
        · subst hik
          by_cases hB : xsurv c x y i
          · rw [if_neg hlt, if_pos rfl, if_pos (show _ < _ + 1 by omega)]
            rw [if_pos hB, if_neg (by simpa [hnzm] using hB)]
          · rw [if_neg hlt, if_pos rfl, if_pos (show _ < _ + 1 by omega)]
            rw [if_neg hB, if_pos (by simp [hB])]
        · rw [if_neg hlt, if_neg hik]
          by_cases hik1 : i = k + 1
          · subst hik1
            rw [if_neg (show ¬ k + 1 < k + 1 by omega),
              if_pos (show k + 1 = k + 1 from rfl), hx1]
            have hz1 : zrunAt c x y (k + 1) = 1 := by rw [zrunAt, if_neg hnzm]
            rw [hz1]
          · rw [if_neg (show ¬ i < k + 1 by omega), if_neg hik1]

lemma sizesZ_eq (c : Vox) (x y z : ℕ) (hx : x ≤ 15) (hz : z ≤ 15) :
    sizesZ c x y z =
      if zsurv c x y z then ⟨xrunAt c y z x, 1, zrunAt c x y z⟩ else Size3.zero := by
  unfold sizesZ
  rw [passUp_zstep c x y hx 15 le_rfl z]
  rcases Nat.lt_or_ge z 15 with hlt | hge
  · rw [if_pos hlt]
    unfold zsurv
    by_cases hzm : zmerge c x y (z + 1)
    · rw [if_pos (Or.inl hzm),
        if_neg (fun h => h.2.elim (fun h15 => absurd h15 (by omega)) (fun hn => hn hzm))]
    · by_cases hxs : xsurv c x y z
      · rw [if_neg (by push_neg; exact ⟨hzm, hxs⟩), if_pos ⟨hxs, Or.inr hzm⟩]
      · rw [if_pos (Or.inr hxs), if_neg (fun h => absurd h.1 hxs)]
  · have hz15 : z = 15 := by omega
    subst hz15
    rw [if_neg (by omega), if_pos rfl]
    unfold zsurv
    by_cases hxs : xsurv c x y 15
    · rw [if_pos hxs, if_pos ⟨hxs, Or.inl rfl⟩]
    · rw [if_neg hxs, if_neg (fun h => absurd h.1 hxs)]

lemma passUp_ystep (c : Vox) (x z : ℕ) (hx : x ≤ 15) (hz : z ≤ 15) :
    ∀ k, k ≤ 15 → ∀ i,
      passUp (ystep (fun j => c x j z)) (fun j => sizesZ c x j z) k i =
        if i < k then
          (if ymerge c x (i + 1) z ∨ ¬ zsurv c x i z then Size3.zero
           else ⟨xrunAt c i z x, yrunAt c x z i, zrunAt c x i z⟩)
        else if i = k then
          (if zsurv c x i z then ⟨xrunAt c i z x, yrunAt c x z i, zrunAt c x i z⟩
           else Size3.zero)
        else sizesZ c x i z := by
  intro k
  induction k with
  | zero =>
    intro _ i
    rcases Nat.eq_zero_or_pos i with rfl | hi
    · simp only [passUp, Nat.not_lt_zero, if_false, if_pos rfl]
      rw [sizesZ_eq c x 0 z hx hz]
      rfl
    · simp only [passUp, Nat.not_lt_zero, if_false]
      rw [if_neg (by omega)]
  | succ k ih =>
    intro hk i
    have ihh := ih (by omega)
    have hp_succ : passUp (ystep (fun j => c x j z)) (fun j => sizesZ c x j z) k (k + 1)
        = sizesZ c x (k + 1) z := by
      rw [ihh]
      rw [if_neg (by omega), if_neg (by omega)]
    have hp_k : passUp (ystep (fun j => c x j z)) (fun j => sizesZ c x j z) k k
        = if zsurv c x k z then ⟨xrunAt c k z x, yrunAt c x z k, zrunAt c x k z⟩
          else Size3.zero := by
      rw [ihh]
      rw [if_neg (by omega), if_pos rfl]
    have hx1 : sizesZ c x (k + 1) z
        = if zsurv c x (k + 1) z then
            ⟨xrunAt c (k + 1) z x, 1, zrunAt c x (k + 1) z⟩ else Size3.zero :=
      sizesZ_eq c x (k + 1) z hx hz
    rw [passUp]
    have hstep : ∀ s : ℕ → Size3,
        ystep (fun j => c x j z) s (k + 1) =
          if s (k + 1) = Size3.zero ∨ s k = Size3.zero then s
          else if c x (k + 1) z = c x k z ∧ (s k).x = (s (k + 1)).x ∧
              (s k).z = (s (k + 1)).z then
            updLine (updLine s (k + 1)
              ⟨(s (k + 1)).x, (s (k + 1)).y + (s k).y, (s (k + 1)).z⟩) k Size3.zero
          else s := by
      intro s
      unfold ystep can_merge_mesh
      rw [show k + 1 - 1 = k from rfl]
    rw [hstep]
    by_cases hA : zsurv c x (k + 1) z
    · by_cases hB : zsurv c x k z
      · have hs1 : passUp (ystep (fun j => c x j z)) (fun j => sizesZ c x j z) k (k + 1)
            = ⟨xrunAt c (k + 1) z x, 1, zrunAt c x (k + 1) z⟩ := by
          rw [hp_succ, hx1, if_pos hA]
        have hs0 : passUp (ystep (fun j => c x j z)) (fun j => sizesZ c x j z) k k
            = ⟨xrunAt c k z x, yrunAt c x z k, zrunAt c x k z⟩ := by
          rw [hp_k, if_pos hB]
        rw [if_neg (by
          rw [hs1, hs0]
          push_neg
          exact ⟨run_ne_zero _ _ _ (xrunAt_pos _ _ _ _),
            run_ne_zero _ _ _ (xrunAt_pos _ _ _ _)⟩)]
        by_cases hM : c x (k + 1) z = c x k z ∧ xrunAt c k z x = xrunAt c (k + 1) z x ∧
            zrunAt c x k z = zrunAt c x (k + 1) z
        · have hym : ymerge c x (k + 1) z := by
            refine ⟨hA, by simpa using hB, by simpa using hM.1, by simpa using hM.2.1.symm,
              by simpa using hM.2.2.symm⟩
          rw [if_pos (by rw [hs1, hs0]; exact ⟨hM.1, hM.2.1, hM.2.2⟩)]
          unfold updLine
          by_cases hik : i = k
          · subst hik
            rw [if_pos rfl, if_pos (show i < i + 1 by omega), if_pos (Or.inl hym)]
          · rw [if_neg hik]
            by_cases hik1 : i = k + 1
            · subst hik1
              rw [if_pos rfl, hs1, hs0]
              rw [if_neg (by omega), if_pos rfl, if_pos hA]
              show (⟨xrunAt c (k + 1) z x, 1 + yrunAt c x z k, zrunAt c x (k + 1) z⟩
                  : Size3) = _
              rw [show yrunAt c x z (k + 1) = yrunAt c x z k + 1 from by
                rw [yrunAt, if_pos hym]]
              rw [Nat.add_comm 1 (yrunAt c x z k)]
            · rw [if_neg hik1, ihh]
              by_cases hlt : i < k
              · rw [if_pos hlt, if_pos (show i < k + 1 by omega)]
              · rw [if_neg hlt, if_neg hik, if_neg (show ¬ i < k + 1 by omega),
                  if_neg hik1]
        · have hnym : ¬ ymerge c x (k + 1) z := by
            intro hym
            exact hM ⟨by simpa using hym.2.2.1, by simpa using hym.2.2.2.1.symm,
              by simpa using hym.2.2.2.2.symm⟩
          rw [if_neg (by rw [hs1, hs0]; simpa using hM), ihh]
          by_cases hlt : i < k
          · rw [if_pos hlt, if_pos (show i < k + 1 by omega)]
          · by_cases hik : i = k
            · subst hik
              rw [if_neg hlt, if_pos rfl, if_pos (show _ < _ + 1 by omega)]
              rw [if_pos hB, if_neg (by simpa [hnym] using hB)]
            · rw [if_neg hlt, if_neg hik]
              by_cases hik1 : i = k + 1
              · subst hik1
                rw [if_neg (show ¬ k + 1 < k + 1 by omega),
                  if_pos (show k + 1 = k + 1 from rfl), hx1]
                have hy1 : yrunAt c x z (k + 1) = 1 := by rw [yrunAt, if_neg hnym]
                rw [hy1]
              · rw [if_neg (show ¬ i < k + 1 by omega), if_neg hik1]
      · have hnym : ¬ ymerge c x (k + 1) z := by
          intro hym
          exact hB (by simpa using hym.2.1)
        rw [if_pos (by rw [hp_k, if_neg hB]; exact Or.inr rfl), ihh]
        by_cases hlt : i < k
        · rw [if_pos hlt, if_pos (show i < k + 1 by omega)]
        · by_cases hik : i = k
          · subst hik
            rw [if_neg hlt, if_pos rfl, if_pos (show _ < _ + 1 by omega)]
            rw [if_neg hB, if_pos (by simp [hB])]
          · rw [if_neg hlt, if_neg hik]
            by_cases hik1 : i = k + 1
            · subst hik1
              rw [if_neg (show ¬ k + 1 < k + 1 by omega),
                if_pos (show k + 1 = k + 1 from rfl), hx1]
              have hy1 : yrunAt c x z (k + 1) = 1 := by rw [yrunAt, if_neg hnym]
              rw [hy1]
            · rw [if_neg (show ¬ i < k + 1 by omega), if_neg hik1]
    · have hnym : ¬ ymerge c x (k + 1) z := by
        intro hym
        exact hA hym.1
      rw [if_pos (by rw [hp_succ, hx1, if_neg hA]; exact Or.inl rfl), ihh]
      by_cases hlt : i < k
      · rw [if_pos hlt, if_pos (show i < k + 1 by omega)]
      · by_cases hik : i = k
        · subst hik
          by_cases hB : zsurv c x i z
          · rw [if_neg hlt, if_pos rfl, if_pos (show _ < _ + 1 by omega)]
            rw [if_pos hB, if_neg (by simpa [hnym] using hB)]
          · rw [if_neg hlt, if_pos rfl, if_pos (show _ < _ + 1 by omega)]
            rw [if_neg hB, if_pos (by simp [hB])]
        · rw [if_neg hlt, if_neg hik]
          by_cases hik1 : i = k + 1
          · subst hik1
            rw [if_neg (show ¬ k + 1 < k + 1 by omega),
              if_pos (show k + 1 = k + 1 from rfl), hx1]
            rw [if_neg hA, if_neg hA]
          · rw [if_neg (show ¬ i < k + 1 by omega), if_neg hik1]

/-- The final extent array of `greedy_meshing` in closed form: a cell carries
`⟨xrun, yrun, zrun⟩` exactly when it survived all three merge passes, and
`Vec3::ZERO` otherwise. -/
theorem sizesFinal_eq (c : Vox) (x y z : ℕ) (hx : x ≤ 15) (hy : y ≤ 15) (hz : z ≤ 15) :
    sizesFinal c x y z = if ysurv c x y z then runsAt c x y z else Size3.zero := by
  unfold sizesFinal runsAt
  rw [passUp_ystep c x z hx hz 15 le_rfl y]
  rcases Nat.lt_or_ge y 15 with hlt | hge
  · rw [if_pos hlt]
    unfold ysurv
    by_cases hym : ymerge c x (y + 1) z
    · rw [if_pos (Or.inl hym),
        if_neg (fun h => h.2.elim (fun h15 => absurd h15 (by omega)) (fun hn => hn hym))]
    · by_cases hzs : zsurv c x y z
      · rw [if_neg (by push_neg; exact ⟨hym, hzs⟩), if_pos ⟨hzs, Or.inr hym⟩]
      · rw [if_pos (Or.inr hzs), if_neg (fun h => absurd h.1 hzs)]
  · have hy15 : y = 15 := by omega
    subst hy15
    rw [if_neg (by omega), if_pos rfl]
    unfold ysurv
    by_cases hzs : zsurv c x 15 z
    · rw [if_pos hzs, if_pos ⟨hzs, Or.inl rfl⟩]
    · rw [if_neg hzs, if_neg (fun h => absurd h.1 hzs)]

/-! ## The emission loops of the meshers

The emission loop of `greedy_meshing` (`voxel.rs` 326-578) walks the cells in
`y, z, x` order and, for each solid cell with nonzero extent, emits up to six
faces in the fixed order top, bottom, left, right, front, back; a face is
emitted when its layer touches the chunk boundary, or else when the
`is_exposed` scan over the face's footprint in the neighboring plane finds an
empty voxel.  The exposure conditions read only the voxel grid and the sizes
array, never the mesh buffer, so the loop is split into the emitted face list
(in source order) and the `add_face` fold over it; `default_mesh`
(`voxel.rs` 233-277) is embedded the same way with unit extents and
single-neighbor conditions. -/

/-- The `is_exposed` scan of the top face (`voxel.rs` 363-370). -/
def scanTop (c : Vox) (x y z sx sz : ℕ) : Prop :=
  ∃ z1 ≤ z, 1 + z - sz ≤ z1 ∧ ∃ x1 ≤ x, 1 + x - sx ≤ x1 ∧ c x1 (y + 1) z1 = 0

/-- The `is_exposed` scan of the bottom face (`voxel.rs` 399-407). -/
def scanBottom (c : Vox) (x y z sx sy sz : ℕ) : Prop :=
  ∃ z1 ≤ z, 1 + z - sz ≤ z1 ∧ ∃ x1 ≤ x, 1 + x - sx ≤ x1 ∧ c x1 (y - sy) z1 = 0

/-- The `is_exposed` scan of the left face (`voxel.rs` 438-446). -/
def scanLeft (c : Vox) (x y z sx sy sz : ℕ) : Prop :=
  ∃ z1 ≤ z, 1 + z - sz ≤ z1 ∧ ∃ y1 ≤ y, 1 + y - sy ≤ y1 ∧ c (x - sx) y1 z1 = 0

/-- The `is_exposed` scan of the right face (`voxel.rs` 476-484). -/
def scanRight (c : Vox) (x y z sy sz : ℕ) : Prop :=
  ∃ z1 ≤ z, 1 + z - sz ≤ z1 ∧ ∃ y1 ≤ y, 1 + y - sy ≤ y1 ∧ c (x + 1) y1 z1 = 0

/-- The `is_exposed` scan of the front face (`voxel.rs` 513-521). -/
def scanFront (c : Vox) (x y z sx sy : ℕ) : Prop :=
  ∃ x1 ≤ x, 1 + x - sx ≤ x1 ∧ ∃ y1 ≤ y, 1 + y - sy ≤ y1 ∧ c x1 y1 (z + 1) = 0

/-- The `is_exposed` scan of the back face (`voxel.rs` 551-559). -/
def scanBack (c : Vox) (x y z sx sy sz : ℕ) : Prop :=
  ∃ x1 ≤ x, 1 + x - sx ≤ x1 ∧ ∃ y1 ≤ y, 1 + y - sy ≤ y1 ∧ c x1 y1 (z - sz) = 0

instance (c : Vox) (x y z sx sz : ℕ) : Decidable (scanTop c x y z sx sz) := by
  unfold scanTop
  infer_instance

instance (c : Vox) (x y z sx sy sz : ℕ) : Decidable (scanBottom c x y z sx sy sz) := by
  unfold scanBottom
  infer_instance

instance (c : Vox) (x y z sx sy sz : ℕ) : Decidable (scanLeft c x y z sx sy sz) := by
  unfold scanLeft
  infer_instance

instance (c : Vox) (x y z sy sz : ℕ) : Decidable (scanRight c x y z sy sz) := by
  unfold scanRight
  infer_instance

instance (c : Vox) (x y z sx sy : ℕ) : Decidable (scanFront c x y z sx sy) := by
  unfold scanFront
  infer_instance

instance (c : Vox) (x y z sx sy sz : ℕ) : Decidable (scanBack c x y z sx sy sz) := by
  unfold scanBack
  infer_instance

/-- The emission condition of `greedy_meshing` for one face direction of the
cell `(x, y, z)` with extents `s`: boundary cases emit unconditionally, inner
faces emit when their footprint scan finds an exposed cell (`voxel.rs`
345-575, in the source's top, bottom, left, right, front, back order). -/
def faceCondG (c : Vox) (x y z : ℕ) (s : Size3) : FaceDirection → Prop
  | .Top => y = 15 ∨ (y < 15 ∧ scanTop c x y z s.x s.z)
  | .Bottom => 1 + y - s.y = 0 ∨ (1 + y - s.y ≠ 0 ∧ scanBottom c x y z s.x s.y s.z)
  | .Left => 1 + x - s.x = 0 ∨ (1 + x - s.x ≠ 0 ∧ scanLeft c x y z s.x s.y s.z)
  | .Right => x = 15 ∨ (x ≠ 15 ∧ scanRight c x y z s.y s.z)
  | .Front => z = 15 ∨ (z ≠ 15 ∧ scanFront c x y z s.x s.y)
  | .Back => 1 + z - s.z = 0 ∨ (1 + z - s.z ≠ 0 ∧ scanBack c x y z s.x s.y s.z)

instance (c : Vox) (x y z : ℕ) (s : Size3) (d : FaceDirection) :
    Decidable (faceCondG c x y z s d) := by
  cases d <;> (unfold faceCondG; infer_instance)

/-- The per-direction exposure test of `default_mesh` (`voxel.rs` 249-271):
chunk boundary or empty neighbor, in the source's emission order. -/
def exposedD (c : Vox) (x y z : ℕ) : FaceDirection → Prop
  | .Top => y = 15 ∨ (y < 15 ∧ c x (y + 1) z = 0)
  | .Bottom => y = 0 ∨ (0 < y ∧ c x (y - 1) z = 0)
  | .Left => x = 0 ∨ (0 < x ∧ c (x - 1) y z = 0)
  | .Right => x = 15 ∨ (x < 15 ∧ c (x + 1) y z = 0)
  | .Front => z = 15 ∨ (z < 15 ∧ c x y (z + 1) = 0)
  | .Back => z = 0 ∨ (0 < z ∧ c x y (z - 1) = 0)

instance (c : Vox) (x y z : ℕ) (d : FaceDirection) : Decidable (exposedD c x y z d) := by
  cases d <;> (unfold exposedD; infer_instance)

/-- The fixed per-cell emission order of both meshers. -/
def dirList : List FaceDirection := [.Top, .Bottom, .Left, .Right, .Front, .Back]

/-- One emitted face: its direction, emitting cell and merged extents. -/
structure FaceG where
  dir : FaceDirection
  x : ℕ
  y : ℕ
  z : ℕ
  ext : Size3
deriving DecidableEq, Repr

/-- The faces `greedy_meshing` emits for one cell: none if the voxel is
empty (`voxel.rs` 331) or absorbed (`voxel.rs` 335), else one face per
satisfied direction condition, in source order. -/
def facesAtCell (c : Vox) (x y z : ℕ) : List FaceG :=
  if c x y z = 0 then []
  else if sizesFinal c x y z = Size3.zero then []
  else
    (dirList.filter (fun d => decide (faceCondG c x y z (sizesFinal c x y z) d))).map
      (fun d => ⟨d, x, y, z, sizesFinal c x y z⟩)

/-- The cells of a chunk in the emission loops' iteration order
(`y` outer, then `z`, then `x`). -/
def cellList : List (ℕ × ℕ × ℕ) :=
  (List.range 16).flatMap (fun y =>
    (List.range 16).flatMap (fun z =>
      (List.range 16).map (fun x => (x, y, z))))

/-- All faces emitted by `greedy_meshing`, in emission order. -/
def greedyFaces (c : Vox) : List FaceG :=
  cellList.flatMap (fun p => facesAtCell c p.1 p.2.1 p.2.2)

/-- The faces `default_mesh` emits for one cell (`voxel.rs` 239-271). -/
def defaultFacesAtCell (c : Vox) (x y z : ℕ) : List FaceG :=
  if c x y z = 0 then []
  else
    (dirList.filter (fun d => decide (exposedD c x y z d))).map
      (fun d => ⟨d, x, y, z, Size3.one⟩)

/-- All faces emitted by `default_mesh`, in emission order. -/
def defaultFaces (c : Vox) : List FaceG :=
  cellList.flatMap (fun p => defaultFacesAtCell c p.1 p.2.1 p.2.2)

/-- The `CubeFace` constant passed to `add_face` for each direction. -/
def cubeFaceOf : FaceDirection → CubeFace
  | .Top => TOP_FACE
  | .Bottom => BOTTOM_FACE
  | .Left => LEFT_FACE
  | .Right => RIGHT_FACE
  | .Front => FRONT_FACE
  | .Back => BACK_FACE

/-- The `offset` argument of each `add_face` call site of the emission
loops, reconstructed from the chunk-space offset, the cell, and the
direction-specific shift by the merged extents (for `default_mesh` all
extents are 1 and every shift vanishes). -/
def faceOffset (ci : ChunkIndex) (f : FaceG) : Vec3Q :=
  let base : Vec3Q :=
    ((ci.x : ℚ) * 16 + (f.x : ℚ), (ci.y : ℚ) * 16 + (f.y : ℚ), (ci.z : ℚ) * 16 + (f.z : ℚ))
  let sx : ℚ := f.ext.x
  let sy : ℚ := f.ext.y
  let sz : ℚ := f.ext.z
  match f.dir with
  | .Top => base + (1 - sx, 0, 1 - sz)
  | .Bottom => base + (1 - sx, 0, 1 - sz) + (0, 1 - sy, 0)
  | .Left => base + (0, 1 - sy, 1 - sz) + (1 - sx, 0, 0)
  | .Right => base + (0, 1 - sy, 1 - sz)
  | .Front => base + (1 - sx, 1 - sy, 0)
  | .Back => base + (1 - sx, 1 - sy, 0) + (0, 0, 1 - sz)

/-- The `size` argument of each `add_face` call site. -/
def faceSize (f : FaceG) : Vec3Q :=
  match f.dir with
  | .Top | .Bottom => ((f.ext.x : ℚ), 1, (f.ext.z : ℚ))
  | .Left | .Right => (1, (f.ext.y : ℚ), (f.ext.z : ℚ))
  | .Front | .Back => ((f.ext.x : ℚ), (f.ext.y : ℚ), 1)

/-- Fold `add_face` over an emitted face list (the mesh-buffer side of the
emission loops). -/
def renderMesh (ci : ChunkIndex) (faces : List FaceG) : MeshData :=
  faces.foldl (fun m f => add_face m (cubeFaceOf f.dir) (faceOffset ci f) (faceSize f))
    MeshData.new

/-- `greedy_meshing` from `voxel.rs` (279-581). -/
def greedy_meshing (cd : ChunkData) : MeshData :=
  renderMesh cd.index (greedyFaces cd.voxels)

/-- `default_mesh` from `voxel.rs` (233-277). -/
def default_mesh (cd : ChunkData) : MeshData :=
  renderMesh cd.index (defaultFaces cd.voxels)

/-! ## Claim C10: the parallel-array invariant -/

/-- The mesh-buffer invariant of the claim: positions, normals and uvs have
equal length, each face contributes 4 vertices and 6 indices
(`2·|indices| = 3·|vertices|`), and every index is in bounds. -/
def wellFormed (m : MeshData) : Prop :=
  m.normals.length = m.positions.length ∧
    m.uvs.length = m.positions.length ∧
    2 * m.indices.length = 3 * m.positions.length ∧
    ∀ i ∈ m.indices, i < m.positions.length

lemma wellFormed_add_face (m : MeshData) (face : CubeFace) (offset size : Vec3Q)
    (hm : wellFormed m) (hc : face.cornor_indices.length = 4) :
    wellFormed (add_face m face offset size) := by
  obtain ⟨h1, h2, h3, h4⟩ := hm
  refine ⟨?_, ?_, ?_, ?_⟩
  · simp [add_face, h1, hc]
  · simp [add_face, h2, hc, UVS]
  · simp only [add_face, List.length_append, List.length_map, hc, UVS]
    simp only [List.length_cons, List.length_nil]
    omega
  · intro i hi
    simp only [add_face, List.length_append, List.length_map, hc, List.mem_append,
      List.mem_cons, List.mem_singleton] at hi ⊢
    rcases hi with hi | hi
    · have := h4 i hi
      omega
    · rcases hi with rfl | rfl | rfl | rfl | rfl | h
      · omega
      · omega
      · omega
      · omega
      · omega
      · simp at h
        omega

lemma cubeFaceOf_corners (d : FaceDirection) : (cubeFaceOf d).cornor_indices.length = 4 := by
  cases d <;> rfl

lemma wellFormed_renderMesh_fold (ci : ChunkIndex) (faces : List FaceG) :
    ∀ m : MeshData, wellFormed m →
      wellFormed (faces.foldl
        (fun m f => add_face m (cubeFaceOf f.dir) (faceOffset ci f) (faceSize f)) m) := by
  induction faces with
  | nil => exact fun m hm => hm
  | cons f rest ih =>
    intro m hm
    rw [List.foldl_cons]
    exact ih _ (wellFormed_add_face _ _ _ _ hm (cubeFaceOf_corners f.dir))

lemma wellFormed_renderMesh (ci : ChunkIndex) (faces : List FaceG) :
    wellFormed (renderMesh ci faces) :=
  wellFormed_renderMesh_fold ci faces MeshData.new ⟨rfl, rfl, rfl, by simp [MeshData.new]⟩

lemma sum_indices_ratio (ms : List MeshData)
    (h : ∀ m ∈ ms, 2 * m.indices.length = 3 * m.positions.length) :
    2 * (ms.map (fun m => m.indices.length)).sum
      = 3 * (ms.map (fun m => m.positions.length)).sum := by
  induction ms with
  | nil => simp
  | cons m rest ih =>
    simp only [List.map_cons, List.sum_cons, Nat.mul_add]
    rw [h m (List.mem_cons_self _ _), ih (fun mm hm => h mm (List.mem_cons_of_mem _ hm))]

lemma sum_map_congr (ms : List MeshData) (f g : MeshData → ℕ)
    (h : ∀ m ∈ ms, f m = g m) : (ms.map f).sum = (ms.map g).sum := by
  induction ms with
  | nil => simp
  | cons m rest ih =>
    simp only [List.map_cons, List.sum_cons]
    rw [h m (List.mem_cons_self _ _), ih (fun mm hm => h mm (List.mem_cons_of_mem _ hm))]

/-- C10.  Every mesh buffer produced by `default_mesh` or `greedy_meshing`
keeps the parallel-array invariant, and so does `combine_meshes` on
well-formed inputs (whose total vertex count keeps the `u32` index offset
from wrapping): positions, normals and uvs have equal length, the index list
is exactly 3/2 times the vertex count (4 vertices and 6 indices per emitted
face), and every index is strictly below the vertex count. -/
theorem c10_theorem (cd : ChunkData) (ms : List MeshData)
    (hms : ∀ m ∈ ms, wellFormed m)
    (htot : (ms.map (fun m => m.positions.length)).sum < U32MOD) :
    wellFormed (default_mesh cd) ∧ wellFormed (greedy_meshing cd) ∧
      wellFormed (combine_meshes ms) := by
  refine ⟨wellFormed_renderMesh _ _, wellFormed_renderMesh _ _, ?_⟩
  obtain ⟨p1, p2, p3, p4, p5, p6, p7⟩ :=
    combine_foldl_facts ms (MeshData.new, 0) rfl (by simpa using htot)
      (fun m hm => (hms m hm).2.2.2)
  have hn : (ms.map (fun m => m.normals.length)).sum
      = (ms.map (fun m => m.positions.length)).sum :=
    sum_map_congr ms _ _ (fun m hm => (hms m hm).1)
  have hu : (ms.map (fun m => m.uvs.length)).sum
      = (ms.map (fun m => m.positions.length)).sum :=
    sum_map_congr ms _ _ (fun m hm => (hms m hm).2.1)
  refine ⟨?_, ?_, ?_, ?_⟩
  · rw [show combine_meshes ms = (ms.foldl combineStep (MeshData.new, 0)).1 from rfl]
    rw [p1, p4, hn]
    simp [MeshData.new]
  · rw [show combine_meshes ms = (ms.foldl combineStep (MeshData.new, 0)).1 from rfl]
    rw [p1, p5, hu]
    simp [MeshData.new]
  · rw [show combine_meshes ms = (ms.foldl combineStep (MeshData.new, 0)).1 from rfl]
    rw [p1, p6]
    simp only [MeshData.new, List.length_nil, Nat.zero_add]
    exact sum_indices_ratio ms (fun m hm => (hms m hm).2.2.1)
  · intro i hi
    rw [show combine_meshes ms = (ms.foldl combineStep (MeshData.new, 0)).1 from rfl] at hi ⊢
    rcases p7 i hi with hmem | hlt
    · simp [MeshData.new] at hmem
    · rw [p1]
      rw [p3] at hlt
      simpa [MeshData.new] using hlt

/-- C10 (witness): the invariant holds for an arbitrary concrete chunk and
the empty mesh list. -/
theorem c10_witness :
    wellFormed (default_mesh (ChunkData.new (fun _ _ => 0) ⟨0, 0, 0⟩)) ∧
      wellFormed (greedy_meshing (ChunkData.new (fun _ _ => 0) ⟨0, 0, 0⟩)) ∧
      wellFormed (combine_meshes []) :=
  c10_theorem (ChunkData.new (fun _ _ => 0) ⟨0, 0, 0⟩) [] (by simp) (by decide)

/-! ## Geometry of the merged regions

A surviving cell `(x, y, z)` with closed-form extents `⟨sx, sy, sz⟩` owns the
box `[x+1-sx, x] × [y+1-sy, y] × [z+1-sz, z]`.  The lemmas below show the
extents are positive and within bounds, each box has constant material, the
boxes of survivors partition the grid (every cell has a unique surviving
owner), and the emission conditions match per-footprint exposure. -/

lemma xrunAt_le (c : Vox) (y z x : ℕ) : xrunAt c y z x ≤ x + 1 := by
  induction x with
  | zero => simp [xrunAt, xrunL]
  | succ n ih =>
    unfold xrunAt xrunL
    split
    · exact Nat.succ_le_succ ih
    · omega

lemma zrunAt_le (c : Vox) (x y z : ℕ) : zrunAt c x y z ≤ z + 1 := by
  induction z with
  | zero => simp [zrunAt]
  | succ n ih =>
    rw [zrunAt]
    split
    · omega
    · omega

lemma yrunAt_le (c : Vox) (x z y : ℕ) : yrunAt c x z y ≤ y + 1 := by
  induction y with
  | zero => simp [yrunAt]
  | succ n ih =>
    rw [yrunAt]
    split
    · omega
    · omega

/-- Cells of the x-run ending at `x` all hold the same material. -/
lemma xrun_const (c : Vox) (y z : ℕ) :
    ∀ x i : ℕ, x + 1 - xrunAt c y z x ≤ i → i ≤ x → c i y z = c x y z := by
  intro x
  induction x with
  | zero =>
    intro i h1 h2
    have hi0 : i = 0 := by omega
    rw [hi0]
  | succ n ih =>
    intro i h1 h2
    by_cases hm : c (n + 1) y z = c n y z
    · have hr : xrunAt c y z (n + 1) = xrunAt c y z n + 1 := by
        simp only [xrunAt, xrunL]
        rw [if_pos hm]
      rcases Nat.eq_or_lt_of_le h2 with rfl | hlt
      · rfl
      · have hi : i ≤ n := by omega
        rw [ih i (by omega) hi, hm]
    · have hr : xrunAt c y z (n + 1) = 1 := by
        simp only [xrunAt, xrunL]
        rw [if_neg hm]
      have : i = n + 1 := by omega
      rw [this]

/-- The Z pass merged every adjacent pair inside the z-chain ending at `z`. -/
lemma zrun_merge_chain (c : Vox) (x y : ℕ) :
    ∀ z j : ℕ, z + 2 - zrunAt c x y z ≤ j → j ≤ z → zmerge c x y j := by
  intro z
  induction z with
  | zero =>
    intro j h1 h2
    have := zrunAt_pos c x y 0
    have := zrunAt_le c x y 0
    omega
  | succ n ih =>
    intro j h1 h2
    by_cases hm : zmerge c x y (n + 1)
    · have hr : zrunAt c x y (n + 1) = zrunAt c x y n + 1 := by
        rw [zrunAt, if_pos hm]
      rcases Nat.eq_or_lt_of_le h2 with rfl | hlt
      · exact hm
      · exact ih j (by omega) (by omega)
    · have hr : zrunAt c x y (n + 1) = 1 := by rw [zrunAt, if_neg hm]
      omega

/-- Every level of the z-chain ending at a cell that survived the X pass
also survived the X pass, with the same x-extent and material. -/
lemma zrun_chain (c : Vox) (x y : ℕ) :
    ∀ z : ℕ, xsurv c x y z → ∀ j : ℕ, z + 1 - zrunAt c x y z ≤ j → j ≤ z →
      xsurv c x y j ∧ xrunAt c y j x = xrunAt c y z x ∧ c x y j = c x y z := by
  intro z
  induction z with
  | zero =>
    intro hs j h1 h2
    have hj0 : j = 0 := by omega
    subst hj0
    exact ⟨hs, rfl, rfl⟩
  | succ n ih =>
    intro hs j h1 h2
    rcases Nat.eq_or_lt_of_le h2 with rfl | hlt
    · exact ⟨hs, rfl, rfl⟩
    · by_cases hm : zmerge c x y (n + 1)
      · have hr : zrunAt c x y (n + 1) = zrunAt c x y n + 1 := by
          rw [zrunAt, if_pos hm]
        have hxs_n : xsurv c x y n := by
          have := hm.2.1
          simpa using this
        obtain ⟨hp1, hp2, hp3⟩ := ih hxs_n j (by omega) (by omega)
        have hx_eq : xrunAt c y n x = xrunAt c y (n + 1) x := by
          have := hm.2.2.2
          simpa using this.symm
        have hc_eq : c x y n = c x y (n + 1) := by
          have := hm.2.2.1
          simpa using this.symm
        exact ⟨hp1, by rw [hp2, hx_eq], by rw [hp3, hc_eq]⟩
      · have hr : zrunAt c x y (n + 1) = 1 := by rw [zrunAt, if_neg hm]
        omega

/-- The Y pass merged every adjacent pair inside the y-chain ending at `y`. -/
lemma yrun_merge_chain (c : Vox) (x z : ℕ) :
    ∀ y j : ℕ, y + 2 - yrunAt c x z y ≤ j → j ≤ y → ymerge c x j z := by
  intro y
  induction y with
  | zero =>
    intro j h1 h2
    have := yrunAt_pos c x z 0
    have := yrunAt_le c x z 0
    omega
  | succ n ih =>
    intro j h1 h2
    by_cases hm : ymerge c x (n + 1) z
    · have hr : yrunAt c x z (n + 1) = yrunAt c x z n + 1 := by
        rw [yrunAt, if_pos hm]
      rcases Nat.eq_or_lt_of_le h2 with rfl | hlt
      · exact hm
      · exact ih j (by omega) (by omega)
    · have hr : yrunAt c x z (n + 1) = 1 := by rw [yrunAt, if_neg hm]
      omega

/-- Every level of the y-chain ending at a cell that survived the X and Z
passes also survived them, with the same x- and z-extents and material. -/
lemma yrun_chain (c : Vox) (x z : ℕ) :
    ∀ y : ℕ, zsurv c x y z → ∀ j : ℕ, y + 1 - yrunAt c x z y ≤ j → j ≤ y →
      zsurv c x j z ∧ xrunAt c j z x = xrunAt c y z x ∧
        zrunAt c x j z = zrunAt c x y z ∧ c x j z = c x y z := by
  intro y
  induction y with
  | zero =>
    intro hs j h1 h2
    have hj0 : j = 0 := by omega
    subst hj0
    exact ⟨hs, rfl, rfl, rfl⟩
  | succ n ih =>
    intro hs j h1 h2
    rcases Nat.eq_or_lt_of_le h2 with rfl | hlt
    · exact ⟨hs, rfl, rfl, rfl⟩
    · by_cases hm : ymerge c x (n + 1) z
      · have hr : yrunAt c x z (n + 1) = yrunAt c x z n + 1 := by
          rw [yrunAt, if_pos hm]
        have hzs_n : zsurv c x n z := by
          have := hm.2.1
          simpa using this
        obtain ⟨hp1, hp2, hp3, hp4⟩ := ih hzs_n j (by omega) (by omega)
        have hx_eq : xrunAt c n z x = xrunAt c (n + 1) z x := by
          have := hm.2.2.2.1
          simpa using this.symm
        have hz_eq : zrunAt c x n z = zrunAt c x (n + 1) z := by
          have := hm.2.2.2.2
          simpa using this.symm
        have hc_eq : c x n z = c x (n + 1) z := by
          have := hm.2.2.1
          simpa using this.symm
        exact ⟨hp1, by rw [hp2, hx_eq], by rw [hp3, hz_eq], by rw [hp4, hc_eq]⟩
      · have hr : yrunAt c x z (n + 1) = 1 := by rw [yrunAt, if_neg hm]
        omega

/-- Membership in the box owned by a surviving cell. -/
def inBox (c : Vox) (x y z qx qy qz : ℕ) : Prop :=
  x + 1 - xrunAt c y z x ≤ qx ∧ qx ≤ x ∧
    y + 1 - yrunAt c x z y ≤ qy ∧ qy ≤ y ∧
    z + 1 - zrunAt c x y z ≤ qz ∧ qz ≤ z

/-- Constant material on the whole box of a surviving cell. -/
lemma box_const (c : Vox) (x y z qx qy qz : ℕ) (hs : zsurv c x y z)
    (hb : inBox c x y z qx qy qz) : c qx qy qz = c x y z := by
  obtain ⟨hb1, hb2, hb3, hb4, hb5, hb6⟩ := hb
  obtain ⟨hzs, hxr, hzr, hc⟩ := yrun_chain c x z y hs qy hb3 hb4
  obtain ⟨hxs2, hxr2, hc2⟩ := zrun_chain c x qy z hzs.1 qz (by omega) hb6
  have hconst := xrun_const c qy qz x qx (by rw [hxr2, hxr]; omega) hb2
  rw [hconst, hc2, hc]

/-- Climb upward along x to the end of the current constant run. -/
def climbX (c : Vox) (y z : ℕ) : ℕ → ℕ → ℕ
  | 0, x => x
  | fuel + 1, x => if xsurv c x y z then x else climbX c y z fuel (x + 1)

/-- Climb upward along z to the Z-pass survivor of the current z-chain. -/
def climbZ (c : Vox) (x y : ℕ) : ℕ → ℕ → ℕ
  | 0, z => z
  | fuel + 1, z => if zsurv c x y z then z else climbZ c x y fuel (z + 1)

/-- Climb upward along y to the Y-pass survivor of the current y-chain. -/
def climbY (c : Vox) (x z : ℕ) : ℕ → ℕ → ℕ
  | 0, y => y
  | fuel + 1, y => if ysurv c x y z then y else climbY c x z fuel (y + 1)

lemma climbX_spec (c : Vox) (y z : ℕ) :
    ∀ fuel x, x + fuel = 15 →
      x ≤ climbX c y z fuel x ∧ climbX c y z fuel x ≤ 15 ∧
        xsurv c (climbX c y z fuel x) y z ∧
        ∀ i, x ≤ i → i < climbX c y z fuel x → ¬ xsurv c i y z := by
  intro fuel
  induction fuel with
  | zero =>
    intro x hx
    rw [climbX]
    exact ⟨le_rfl, by omega, Or.inl (by omega), fun i h1 h2 => absurd h2 (by omega)⟩
  | succ n ih =>
    intro x hx
    rw [climbX]
    by_cases hs : xsurv c x y z
    · rw [if_pos hs]
      exact ⟨le_rfl, by omega, hs, fun i h1 h2 => absurd h2 (by omega)⟩
    · rw [if_neg hs]
      obtain ⟨p1, p2, p3, p4⟩ := ih (x + 1) (by omega)
      refine ⟨by omega, p2, p3, fun i h1 h2 => ?_⟩
      rcases Nat.eq_or_lt_of_le h1 with rfl | hlt
      · exact hs
      · exact p4 i (by omega) h2

lemma climbX_eq (c : Vox) (y z : ℕ) :
    ∀ fuel x e, x + fuel = 15 → x ≤ e → e ≤ 15 → xsurv c e y z →
      (∀ i, x ≤ i → i < e → ¬ xsurv c i y z) → climbX c y z fuel x = e := by
  intro fuel
  induction fuel with
  | zero =>
    intro x e hx h1 h2 hs hn
    rw [climbX]
    omega
  | succ n ih =>
    intro x e hx h1 h2 hs hn
    rw [climbX]
    by_cases hsx : xsurv c x y z
    · rw [if_pos hsx]
      by_contra hne
      exact hn x le_rfl (by omega) hsx
    · rw [if_neg hsx]
      have hxe : x ≠ e := fun h => hsx (h ▸ hs)
      exact ih (x + 1) e (by omega) (by omega) h2 hs (fun i hi1 hi2 => hn i (by omega) hi2)

lemma climbZ_spec (c : Vox) (x y : ℕ) :
    ∀ fuel z, z + fuel = 15 → xsurv c x y z →
      z ≤ climbZ c x y fuel z ∧ climbZ c x y fuel z ≤ 15 ∧
        zsurv c x y (climbZ c x y fuel z) ∧
        ∀ j, z < j → j ≤ climbZ c x y fuel z → zmerge c x y j := by
  intro fuel
  induction fuel with
  | zero =>
    intro z hz hxs
    rw [climbZ]
    exact ⟨le_rfl, by omega, ⟨hxs, Or.inl (by omega)⟩,
      fun j h1 h2 => absurd h1 (by omega)⟩
  | succ n ih =>
    intro z hz hxs
    rw [climbZ]
    by_cases hs : zsurv c x y z
    · rw [if_pos hs]
      exact ⟨le_rfl, by omega, hs, fun j h1 h2 => absurd h1 (by omega)⟩
    · rw [if_neg hs]
      have hzm : zmerge c x y (z + 1) := by
        rcases Decidable.not_or_of_imp (fun h : z = 15 => absurd ⟨hxs, Or.inl h⟩ hs) with h
        have h15 : z ≠ 15 := fun he => hs ⟨hxs, Or.inl he⟩
        have : ¬ (z = 15 ∨ ¬ zmerge c x y (z + 1)) := fun ho => hs ⟨hxs, ho⟩
        push_neg at this
        exact this.2
      have hxs1 : xsurv c x y (z + 1) := hzm.1
      obtain ⟨p1, p2, p3, p4⟩ := ih (z + 1) (by omega) hxs1
      refine ⟨by omega, p2, p3, fun j h1 h2 => ?_⟩
      rcases Nat.eq_or_lt_of_le (Nat.succ_le_of_lt h1) with he | hlt
      · rw [← he]
        exact hzm
      · exact p4 j (by omega) h2

lemma climbZ_eq (c : Vox) (x y : ℕ) :
    ∀ fuel z e, z + fuel = 15 → z ≤ e → e ≤ 15 → zsurv c x y e →
      (∀ j, z ≤ j → j < e → ¬ zsurv c x y j) → climbZ c x y fuel z = e := by
  intro fuel
  induction fuel with
  | zero =>
    intro z e hz h1 h2 hs hn
    rw [climbZ]
    omega
  | succ n ih =>
    intro z e hz h1 h2 hs hn
    rw [climbZ]
    by_cases hsz : zsurv c x y z
    · rw [if_pos hsz]
      by_contra hne
      exact hn z le_rfl (by omega) hsz
    · rw [if_neg hsz]
      have hze : z ≠ e := fun h => hsz (h ▸ hs)
      exact ih (z + 1) e (by omega) (by omega) h2 hs (fun j hj1 hj2 => hn j (by omega) hj2)

lemma climbY_spec (c : Vox) (x z : ℕ) :
    ∀ fuel y, y + fuel = 15 → zsurv c x y z →
      y ≤ climbY c x z fuel y ∧ climbY c x z fuel y ≤ 15 ∧
        ysurv c x (climbY c x z fuel y) z ∧
        ∀ j, y < j → j ≤ climbY c x z fuel y → ymerge c x j z := by
  intro fuel
  induction fuel with
  | zero =>
    intro y hy hzs
    rw [climbY]
    exact ⟨le_rfl, by omega, ⟨hzs, Or.inl (by omega)⟩,
      fun j h1 h2 => absurd h1 (by omega)⟩
  | succ n ih =>
    intro y hy hzs
    rw [climbY]
    by_cases hs : ysurv c x y z
    · rw [if_pos hs]
      exact ⟨le_rfl, by omega, hs, fun j h1 h2 => absurd h1 (by omega)⟩
    · rw [if_neg hs]
      have hym : ymerge c x (y + 1) z := by
        have : ¬ (y = 15 ∨ ¬ ymerge c x (y + 1) z) := fun ho => hs ⟨hzs, ho⟩
        push_neg at this
        exact this.2
      have hzs1 : zsurv c x (y + 1) z := hym.1
      obtain ⟨p1, p2, p3, p4⟩ := ih (y + 1) (by omega) hzs1
      refine ⟨by omega, p2, p3, fun j h1 h2 => ?_⟩
      rcases Nat.eq_or_lt_of_le (Nat.succ_le_of_lt h1) with he | hlt
      · rw [← he]
        exact hym
      · exact p4 j (by omega) h2

lemma climbY_eq (c : Vox) (x z : ℕ) :
    ∀ fuel y e, y + fuel = 15 → y ≤ e → e ≤ 15 → ysurv c x e z →
      (∀ j, y ≤ j → j < e → ¬ ysurv c x j z) → climbY c x z fuel y = e := by
  intro fuel
  induction fuel with
  | zero =>
    intro y e hy h1 h2 hs hn
    rw [climbY]
    omega
  | succ n ih =>
    intro y e hy h1 h2 hs hn
    rw [climbY]
    by_cases hsy : ysurv c x y z
    · rw [if_pos hsy]
      by_contra hne
      exact hn y le_rfl (by omega) hsy
    · rw [if_neg hsy]
      have hye : y ≠ e := fun h => hsy (h ▸ hs)
      exact ih (y + 1) e (by omega) (by omega) h2 hs (fun j hj1 hj2 => hn j (by omega) hj2)

lemma xrun_lower (c : Vox) (y z x : ℕ) :
    ∀ d, (∀ i, x ≤ i → i < x + d → c (i + 1) y z = c i y z) →
      d + 1 ≤ xrunAt c y z (x + d) := by
  intro d
  induction d with
  | zero => exact fun _ => xrunAt_pos c y z x
  | succ n ih =>
    intro h
    have hm : c (x + n + 1) y z = c (x + n) y z := h (x + n) (by omega) (by omega)
    have hr : xrunAt c y z (x + n + 1) = xrunAt c y z (x + n) + 1 := by
      simp only [xrunAt, xrunL]
      rw [if_pos hm]
    have := ih (fun i h1 h2 => h i h1 (by omega))
    rw [show x + (n + 1) = x + n + 1 from rfl, hr]
    omega

lemma zrun_lower (c : Vox) (x y z : ℕ) :
    ∀ d, (∀ j, z < j → j ≤ z + d → zmerge c x y j) →
      d + 1 ≤ zrunAt c x y (z + d) := by
  intro d
  induction d with
  | zero => exact fun _ => zrunAt_pos c x y z
  | succ n ih =>
    intro h
    have hm : zmerge c x y (z + n + 1) := h (z + n + 1) (by omega) (by omega)
    have hr : zrunAt c x y (z + n + 1) = zrunAt c x y (z + n) + 1 := by
      rw [zrunAt, if_pos hm]
    have := ih (fun j h1 h2 => h j h1 (by omega))
    rw [show z + (n + 1) = z + n + 1 from rfl, hr]
    omega

lemma yrun_lower (c : Vox) (x z y : ℕ) :
    ∀ d, (∀ j, y < j → j ≤ y + d → ymerge c x j z) →
      d + 1 ≤ yrunAt c x z (y + d) := by
  intro d
  induction d with
  | zero => exact fun _ => yrunAt_pos c x z y
  | succ n ih =>
    intro h
    have hm : ymerge c x (y + n + 1) z := h (y + n + 1) (by omega) (by omega)
    have hr : yrunAt c x z (y + n + 1) = yrunAt c x z (y + n) + 1 := by
      rw [yrunAt, if_pos hm]
    have := ih (fun j h1 h2 => h j h1 (by omega))
    rw [show y + (n + 1) = y + n + 1 from rfl, hr]
    omega

lemma zchain_preserve (c : Vox) (x y z : ℕ) :
    ∀ d, (∀ j, z < j → j ≤ z + d → zmerge c x y j) →
      xrunAt c y (z + d) x = xrunAt c y z x ∧ c x y (z + d) = c x y z := by
  intro d
  induction d with
  | zero => exact fun _ => ⟨rfl, rfl⟩
  | succ n ih =>
    intro h
    obtain ⟨p1, p2⟩ := ih (fun j h1 h2 => h j h1 (by omega))
    have hm : zmerge c x y (z + n + 1) := h (z + n + 1) (by omega) (by omega)
    have hx_eq : xrunAt c y (z + n + 1) x = xrunAt c y (z + n) x := by
      have := hm.2.2.2
      simpa using this
    have hc_eq : c x y (z + n + 1) = c x y (z + n) := by
      have := hm.2.2.1
      simpa using this
    exact ⟨by rw [show z + (n + 1) = z + n + 1 from rfl, hx_eq, p1],
      by rw [show z + (n + 1) = z + n + 1 from rfl, hc_eq, p2]⟩

lemma ychain_preserve (c : Vox) (x y z : ℕ) :
    ∀ d, (∀ j, y < j → j ≤ y + d → ymerge c x j z) →
      xrunAt c (y + d) z x = xrunAt c y z x ∧ zrunAt c x (y + d) z = zrunAt c x y z ∧
        c x (y + d) z = c x y z := by
  intro d
  induction d with
  | zero => exact fun _ => ⟨rfl, rfl, rfl⟩
  | succ n ih =>
    intro h
    obtain ⟨p1, p2, p3⟩ := ih (fun j h1 h2 => h j h1 (by omega))
    have hm : ymerge c x (y + n + 1) z := h (y + n + 1) (by omega) (by omega)
    have hx_eq : xrunAt c (y + n + 1) z x = xrunAt c (y + n) z x := by
      have := hm.2.2.2.1
      simpa using this
    have hz_eq : zrunAt c x (y + n + 1) z = zrunAt c x (y + n) z := by
      have := hm.2.2.2.2
      simpa using this
    have hc_eq : c x (y + n + 1) z = c x (y + n) z := by
      have := hm.2.2.1
      simpa using this
    refine ⟨?_, ?_, ?_⟩
    · rw [show y + (n + 1) = y + n + 1 from rfl, hx_eq, p1]
    · rw [show y + (n + 1) = y + n + 1 from rfl, hz_eq, p2]
    · rw [show y + (n + 1) = y + n + 1 from rfl, hc_eq, p3]

/-- The surviving cell owning an arbitrary grid cell: climb to the end of
the x-run, then up the z-chain, then up the y-chain. -/
def chunkOwner (c : Vox) (qx qy qz : ℕ) : ℕ × ℕ × ℕ :=
  let e := climbX c qy qz (15 - qx) qx
  let f := climbZ c e qy (15 - qz) qz
  let g := climbY c e f (15 - qy) qy
  (e, g, f)

/-- Every grid cell lies in the box of its surviving owner, which holds the
same material. -/
lemma owner_covers (c : Vox) (qx qy qz : ℕ)
    (hqx : qx ≤ 15) (hqy : qy ≤ 15) (hqz : qz ≤ 15) :
    ysurv c (chunkOwner c qx qy qz).1 (chunkOwner c qx qy qz).2.1
        (chunkOwner c qx qy qz).2.2 ∧
      (chunkOwner c qx qy qz).1 ≤ 15 ∧ (chunkOwner c qx qy qz).2.1 ≤ 15 ∧
        (chunkOwner c qx qy qz).2.2 ≤ 15 ∧
      inBox c (chunkOwner c qx qy qz).1 (chunkOwner c qx qy qz).2.1
        (chunkOwner c qx qy qz).2.2 qx qy qz ∧
      c (chunkOwner c qx qy qz).1 (chunkOwner c qx qy qz).2.1
          (chunkOwner c qx qy qz).2.2 = c qx qy qz := by
  obtain ⟨e1, e2, e3, e4⟩ := climbX_spec c qy qz (15 - qx) qx (by omega)
  set e := climbX c qy qz (15 - qx) qx with he
  obtain ⟨f1, f2, f3, f4⟩ := climbZ_spec c e qy (15 - qz) qz (by omega) e3
  set f := climbZ c e qy (15 - qz) qz with hf
  obtain ⟨g1, g2, g3, g4⟩ := climbY_spec c e f (15 - qy) qy (by omega) f3
  set g := climbY c e f (15 - qy) qy with hg
  have howner : chunkOwner c qx qy qz = (e, g, f) := rfl
  rw [howner]
  dsimp only
  have hxconst : ∀ i, qx ≤ i → i < e → c (i + 1) qy qz = c i qy qz := by
    intro i h1 h2
    have hns := e4 i h1 h2
    unfold xsurv at hns
    push_neg at hns
    exact hns.2
  have hxrun_e : e - qx + 1 ≤ xrunAt c qy qz e := by
    have := xrun_lower c qy qz qx (e - qx) (fun i h1 h2 => hxconst i h1 (by omega))
    rwa [show qx + (e - qx) = e by omega] at this
  have hzrun_f : f - qz + 1 ≤ zrunAt c e qy f := by
    have := zrun_lower c e qy qz (f - qz) (fun j h1 h2 => f4 j h1 (by omega))
    rwa [show qz + (f - qz) = f by omega] at this
  have hyrun_g : g - qy + 1 ≤ yrunAt c e f g := by
    have := yrun_lower c e f qy (g - qy) (fun j h1 h2 => g4 j h1 (by omega))
    rwa [show qy + (g - qy) = g by omega] at this
  obtain ⟨hzp1, hzp2⟩ := zchain_preserve c e qy qz (f - qz)
    (fun j h1 h2 => f4 j h1 (by omega))
  rw [show qz + (f - qz) = f by omega] at hzp1 hzp2
  obtain ⟨hyp1, hyp2, hyp3⟩ := ychain_preserve c e qy f (g - qy)
    (fun j h1 h2 => g4 j h1 (by omega))
  rw [show qy + (g - qy) = g by omega] at hyp1 hyp2 hyp3
  have hmat_x : c qx qy qz = c e qy qz := by
    refine xrun_const c qy qz e qx (by omega) e1
  refine ⟨g3, e2, g2, f2, ⟨?_, e1, ?_, g1, ?_, f1⟩, ?_⟩
  · rw [hyp1, hzp1]
    omega
  · omega
  · rw [hyp2]
    omega
  · rw [hyp3, hzp2, hmat_x]

/-- A surviving cell is the owner of every cell of its box. -/
lemma owner_unique (c : Vox) (x y z qx qy qz : ℕ)
    (hx : x ≤ 15) (hy : y ≤ 15) (hz : z ≤ 15)
    (hs : ysurv c x y z) (hb : inBox c x y z qx qy qz) :
    chunkOwner c qx qy qz = (x, y, z) := by
  obtain ⟨hb1, hb2, hb3, hb4, hb5, hb6⟩ := hb
  have hxr_pos := xrunAt_pos c y z x
  have hxr_le := xrunAt_le c y z x
  have hzr_pos := zrunAt_pos c x y z
  have hzr_le := zrunAt_le c x y z
  have hyr_pos := yrunAt_pos c x z y
  have hyr_le := yrunAt_le c x z y
  obtain ⟨hq1, hq2, hq3, hq4⟩ := yrun_chain c x z y hs.1 qy hb3 hb4
  obtain ⟨hr1, hr2, hr3⟩ := zrun_chain c x qy z hq1.1 qz (by omega) hb6
  have hxrun_qline : xrunAt c qy qz x = xrunAt c y z x := by rw [hr2, hq2]
  have he : climbX c qy qz (15 - qx) qx = x := by
    refine climbX_eq c qy qz (15 - qx) qx x (by omega) hb2 hx hr1 ?_
    intro i h1 h2
    unfold xsurv
    push_neg
    have hc1 : c i qy qz = c x qy qz :=
      xrun_const c qy qz x i (by omega) (by omega)
    have hc2 : c (i + 1) qy qz = c x qy qz :=
      xrun_const c qy qz x (i + 1) (by omega) (by omega)
    exact ⟨by omega, by rw [hc1, hc2]⟩
  have hf : climbZ c x qy (15 - qz) qz = z := by
    refine climbZ_eq c x qy (15 - qz) qz z (by omega) hb6 hz hq1 ?_
    intro j h1 h2
    intro hzs
    rcases hzs.2 with h15 | hn
    · omega
    · refine hn (zrun_merge_chain c x qy z (j + 1) ?_ (by omega))
      rw [hq3]
      omega
  have hg : climbY c x z (15 - qy) qy = y := by
    refine climbY_eq c x z (15 - qy) qy y (by omega) hb4 hy hs ?_
    intro j h1 h2
    intro hys
    rcases hys.2 with h15 | hn
    · omega
    · exact hn (yrun_merge_chain c x z y (j + 1) (by omega) (by omega))
  show (climbX c qy qz (15 - qx) qx,
      climbY c (climbX c qy qz (15 - qx) qx) (climbZ c (climbX c qy qz (15 - qx) qx) qy
        (15 - qz) qz) (15 - qy) qy,
      climbZ c (climbX c qy qz (15 - qx) qx) qy (15 - qz) qz) = (x, y, z)
  rw [he, hf, hg]

/-- The cells whose faces the quad of an emitted face covers: the layer of
the emitting cell's box on the face's side.  The quad built by `add_face`
from `faceOffset`/`faceSize` spans, in chunk-local coordinates, exactly the
rectangle `[x+1-sx, x+1] × [z+1-sz, z+1]` at height `y + 1` for a top face
(and correspondingly for the other directions), which is the union of the
unit faces of exactly these cells. -/
def inFootprint (f : FaceG) (qx qy qz : ℕ) : Prop :=
  match f.dir with
  | .Top => f.x + 1 - f.ext.x ≤ qx ∧ qx ≤ f.x ∧ qy = f.y ∧
      f.z + 1 - f.ext.z ≤ qz ∧ qz ≤ f.z
  | .Bottom => f.x + 1 - f.ext.x ≤ qx ∧ qx ≤ f.x ∧ qy = f.y + 1 - f.ext.y ∧
      f.z + 1 - f.ext.z ≤ qz ∧ qz ≤ f.z
  | .Left => qx = f.x + 1 - f.ext.x ∧ f.y + 1 - f.ext.y ≤ qy ∧ qy ≤ f.y ∧
      f.z + 1 - f.ext.z ≤ qz ∧ qz ≤ f.z
  | .Right => qx = f.x ∧ f.y + 1 - f.ext.y ≤ qy ∧ qy ≤ f.y ∧
      f.z + 1 - f.ext.z ≤ qz ∧ qz ≤ f.z
  | .Front => f.x + 1 - f.ext.x ≤ qx ∧ qx ≤ f.x ∧ f.y + 1 - f.ext.y ≤ qy ∧ qy ≤ f.y ∧
      qz = f.z
  | .Back => f.x + 1 - f.ext.x ≤ qx ∧ qx ≤ f.x ∧ f.y + 1 - f.ext.y ≤ qy ∧ qy ≤ f.y ∧
      qz = f.z + 1 - f.ext.z

/-- The footprint of a face emitted with the closed-form extents lies inside
the emitting cell's box. -/
lemma footprint_subset_box (c : Vox) (d : FaceDirection) (x y z qx qy qz : ℕ)
    (hf : inFootprint ⟨d, x, y, z, runsAt c x y z⟩ qx qy qz) :
    inBox c x y z qx qy qz := by
  have hx1 := xrunAt_pos c y z x
  have hx2 := xrunAt_le c y z x
  have hy1 := yrunAt_pos c x z y
  have hy2 := yrunAt_le c x z y
  have hz1 := zrunAt_pos c x y z
  have hz2 := zrunAt_le c x y z
  cases d <;>
    (unfold inFootprint at hf
     simp only [runsAt] at hf
     exact ⟨by omega, by omega, by omega, by omega, by omega, by omega⟩)

/-- The emission condition of a face of a surviving cell holds exactly when
some cell of the face's footprint is exposed in the face's direction (by the
chunk-boundary / empty-neighbor test of `default_mesh`). -/
lemma faceCondG_iff (c : Vox) (x y z : ℕ) (hx : x ≤ 15) (hy : y ≤ 15) (hz : z ≤ 15)
    (d : FaceDirection) :
    faceCondG c x y z (runsAt c x y z) d ↔
      ∃ qx qy qz, inFootprint ⟨d, x, y, z, runsAt c x y z⟩ qx qy qz ∧
        exposedD c qx qy qz d := by
  have hx1 := xrunAt_pos c y z x
  have hx2 := xrunAt_le c y z x
  have hy1 := yrunAt_pos c x z y
  have hy2 := yrunAt_le c x z y
  have hz1 := zrunAt_pos c x y z
  have hz2 := zrunAt_le c x y z
  cases d
  case Top =>
    unfold faceCondG inFootprint exposedD scanTop
    simp only [runsAt]
    constructor
    · rintro (h15 | ⟨hlt, z1, hz1a, hz1b, x1, hx1a, hx1b, hc0⟩)
      · exact ⟨x, y, z, ⟨by omega, by omega, rfl, by omega, by omega⟩, Or.inl h15⟩
      · exact ⟨x1, y, z1, ⟨by omega, by omega, rfl, by omega, by omega⟩,
          Or.inr ⟨hlt, hc0⟩⟩
    · rintro ⟨qx, qy, qz, ⟨ha, hb, rfl, hd, he⟩, hex | ⟨hlt, hc0⟩⟩
      · exact Or.inl hex
      · exact Or.inr ⟨hlt, qz, he, by omega, qx, hb, by omega, hc0⟩
  case Bottom =>
    unfold faceCondG inFootprint exposedD scanBottom
    simp only [runsAt]
    constructor
    · rintro (h0 | ⟨hne, z1, hz1a, hz1b, x1, hx1a, hx1b, hc0⟩)
      · exact ⟨x, y + 1 - yrunAt c x z y, z, ⟨by omega, by omega, rfl, by omega, by omega⟩,
          Or.inl (by omega)⟩
      · refine ⟨x1, y + 1 - yrunAt c x z y, z1,
          ⟨by omega, by omega, rfl, by omega, by omega⟩, Or.inr ⟨by omega, ?_⟩⟩
        rw [show y + 1 - yrunAt c x z y - 1 = y - yrunAt c x z y by omega]
        exact hc0
    · rintro ⟨qx, qy, qz, ⟨ha, hb, rfl, hd, he⟩, hex | ⟨hpos, hc0⟩⟩
      · exact Or.inl (by omega)
      · refine Or.inr ⟨by omega, qz, he, by omega, qx, hb, by omega, ?_⟩
        rw [show y - yrunAt c x z y = y + 1 - yrunAt c x z y - 1 by omega]
        exact hc0
  case Left =>
    unfold faceCondG inFootprint exposedD scanLeft
    simp only [runsAt]
    constructor
    · rintro (h0 | ⟨hne, z1, hz1a, hz1b, y1, hy1a, hy1b, hc0⟩)
      · exact ⟨x + 1 - xrunAt c y z x, y, z, ⟨rfl, by omega, by omega, by omega, by omega⟩,
          Or.inl (by omega)⟩
      · refine ⟨x + 1 - xrunAt c y z x, y1, z1,
          ⟨rfl, by omega, by omega, by omega, by omega⟩, Or.inr ⟨by omega, ?_⟩⟩
        rw [show x + 1 - xrunAt c y z x - 1 = x - xrunAt c y z x by omega]
        exact hc0
    · rintro ⟨qx, qy, qz, ⟨rfl, hb, hcc, hd, he⟩, hex | ⟨hpos, hc0⟩⟩
      · exact Or.inl (by omega)
      · refine Or.inr ⟨by omega, qz, he, by omega, qy, hcc, by omega, ?_⟩
        rw [show x - xrunAt c y z x = x + 1 - xrunAt c y z x - 1 by omega]
        exact hc0
  case Right =>
    unfold faceCondG inFootprint exposedD scanRight
    simp only [runsAt]
    constructor
    · rintro (h15 | ⟨hne, z1, hz1a, hz1b, y1, hy1a, hy1b, hc0⟩)
      · exact ⟨x, y, z, ⟨rfl, by omega, by omega, by omega, by omega⟩, Or.inl h15⟩
      · exact ⟨x, y1, z1, ⟨rfl, by omega, by omega, by omega, by omega⟩,
          Or.inr ⟨by omega, hc0⟩⟩
    · rintro ⟨qx, qy, qz, ⟨rfl, hb, hcc, hd, he⟩, hex | ⟨hlt, hc0⟩⟩
      · exact Or.inl hex
      · exact Or.inr ⟨by omega, qz, he, by omega, qy, hcc, by omega, hc0⟩
  case Front =>
    unfold faceCondG inFootprint exposedD scanFront
    simp only [runsAt]
    constructor
    · rintro (h15 | ⟨hne, x1, hx1a, hx1b, y1, hy1a, hy1b, hc0⟩)
      · exact ⟨x, y, z, ⟨by omega, by omega, by omega, by omega, rfl⟩, Or.inl h15⟩
      · exact ⟨x1, y1, z, ⟨by omega, by omega, by omega, by omega, rfl⟩,
          Or.inr ⟨by omega, hc0⟩⟩
    · rintro ⟨qx, qy, qz, ⟨ha, hb, hcc, hd, rfl⟩, hex | ⟨hlt, hc0⟩⟩
      · exact Or.inl hex
      · exact Or.inr ⟨by omega, qx, hb, by omega, qy, hd, by omega, hc0⟩
  case Back =>
    unfold faceCondG inFootprint exposedD scanBack
    simp only [runsAt]
    constructor
    · rintro (h0 | ⟨hne, x1, hx1a, hx1b, y1, hy1a, hy1b, hc0⟩)
      · exact ⟨x, y, z + 1 - zrunAt c x y z, ⟨by omega, by omega, by omega, by omega, rfl⟩,
          Or.inl (by omega)⟩
      · refine ⟨x1, y1, z + 1 - zrunAt c x y z,
          ⟨by omega, by omega, by omega, by omega, rfl⟩, Or.inr ⟨by omega, ?_⟩⟩
        rw [show z + 1 - zrunAt c x y z - 1 = z - zrunAt c x y z by omega]
        exact hc0
    · rintro ⟨qx, qy, qz, ⟨ha, hb, hcc, hd, rfl⟩, hex | ⟨hpos, hc0⟩⟩
      · exact Or.inl (by omega)
      · refine Or.inr ⟨by omega, qx, hb, by omega, qy, hd, by omega, ?_⟩
        rw [show z - zrunAt c x y z = z + 1 - zrunAt c x y z - 1 by omega]
        exact hc0

lemma mem_dirList (d : FaceDirection) : d ∈ dirList := by
  cases d <;> simp [dirList]

lemma nodup_dirList : dirList.Nodup := by decide

lemma mem_cellList (x y z : ℕ) :
    ((x, y, z) : ℕ × ℕ × ℕ) ∈ cellList ↔ x < 16 ∧ y < 16 ∧ z < 16 := by
  simp only [cellList, List.mem_flatMap, List.mem_range, List.mem_map]
  constructor
  · rintro ⟨y1, hy1, z1, hz1, x1, hx1, heq⟩
    rw [Prod.mk.injEq, Prod.mk.injEq] at heq
    obtain ⟨rfl, rfl, rfl⟩ := heq
    exact ⟨hx1, hy1, hz1⟩
  · rintro ⟨h1, h2, h3⟩
    exact ⟨y, h2, z, h3, x, h1, rfl⟩

lemma nodup_cellList : cellList.Nodup := by
  unfold cellList
  rw [List.nodup_flatMap]
  constructor
  · intro y hy
    rw [List.nodup_flatMap]
    constructor
    · intro z hz
      refine List.Nodup.map_on ?_ (List.nodup_range 16)
      intro x1 h1 x2 h2 heq
      rw [Prod.mk.injEq] at heq
      exact heq.1
    · refine (List.nodup_range 16).imp ?_
      intro z1 z2 hne
      intro a h1 h2
      simp only [List.mem_map, List.mem_range] at h1 h2
      obtain ⟨x1, _, rfl⟩ := h1
      obtain ⟨x2, _, heq⟩ := h2
      rw [Prod.mk.injEq, Prod.mk.injEq] at heq
      exact hne heq.2.2.symm
  · refine (List.nodup_range 16).imp ?_
    intro y1 y2 hne
    intro a h1 h2
    simp only [List.mem_flatMap, List.mem_map, List.mem_range] at h1 h2
    obtain ⟨z1, _, x1, _, rfl⟩ := h1
    obtain ⟨z2, _, x2, _, heq⟩ := h2
    rw [Prod.mk.injEq, Prod.mk.injEq] at heq
    exact hne heq.2.1.symm

set_option maxHeartbeats 2000000 in
lemma mem_greedyFaces (c : Vox) (d : FaceDirection) (x y z : ℕ) (s : Size3) :
    (⟨d, x, y, z, s⟩ : FaceG) ∈ greedyFaces c ↔
      x < 16 ∧ y < 16 ∧ z < 16 ∧ c x y z ≠ 0 ∧ sizesFinal c x y z ≠ Size3.zero ∧
        s = sizesFinal c x y z ∧ faceCondG c x y z (sizesFinal c x y z) d := by
  unfold greedyFaces
  rw [List.mem_flatMap]
  constructor
  · rintro ⟨⟨px, py, pz⟩, hp, hf⟩
    rw [mem_cellList] at hp
    unfold facesAtCell at hf
    by_cases h1 : c px py pz = 0
    · rw [if_pos h1] at hf
      simp at hf
    · rw [if_neg h1] at hf
      by_cases h2 : sizesFinal c px py pz = Size3.zero
      · rw [if_pos h2] at hf
        simp at hf
      · rw [if_neg h2, List.mem_map] at hf
        obtain ⟨d1, hd1, heq⟩ := hf
        rw [FaceG.mk.injEq] at heq
        obtain ⟨rfl, rfl, rfl, rfl, hs⟩ := heq
        rw [List.mem_filter] at hd1
        exact ⟨hp.1, hp.2.1, hp.2.2, h1, h2, hs.symm, of_decide_eq_true hd1.2⟩
  · rintro ⟨h1, h2, h3, h4, h5, h6, h7⟩
    refine ⟨(x, y, z), (mem_cellList x y z).2 ⟨h1, h2, h3⟩, ?_⟩
    unfold facesAtCell
    rw [if_neg h4, if_neg h5, List.mem_map]
    refine ⟨d, List.mem_filter.2 ⟨mem_dirList d, decide_eq_true h7⟩, ?_⟩
    rw [h6]

lemma mem_defaultFaces (c : Vox) (d : FaceDirection) (x y z : ℕ) (s : Size3) :
    (⟨d, x, y, z, s⟩ : FaceG) ∈ defaultFaces c ↔
      x < 16 ∧ y < 16 ∧ z < 16 ∧ c x y z ≠ 0 ∧ s = Size3.one ∧ exposedD c x y z d := by
  unfold defaultFaces
  rw [List.mem_flatMap]
  constructor
  · rintro ⟨⟨px, py, pz⟩, hp, hf⟩
    rw [mem_cellList] at hp
    unfold defaultFacesAtCell at hf
    by_cases h1 : c px py pz = 0
    · rw [if_pos h1] at hf
      simp at hf
    · rw [if_neg h1, List.mem_map] at hf
      obtain ⟨d1, hd1, heq⟩ := hf
      rw [FaceG.mk.injEq] at heq
      obtain ⟨rfl, rfl, rfl, rfl, hs⟩ := heq
      rw [List.mem_filter] at hd1
      exact ⟨hp.1, hp.2.1, hp.2.2, h1, hs.symm, of_decide_eq_true hd1.2⟩
  · rintro ⟨h1, h2, h3, h4, rfl, h6⟩
    refine ⟨(x, y, z), (mem_cellList x y z).2 ⟨h1, h2, h3⟩, ?_⟩
    unfold defaultFacesAtCell
    rw [if_neg h4, List.mem_map]
    exact ⟨d, List.mem_filter.2 ⟨mem_dirList d, decide_eq_true h6⟩, rfl⟩

lemma facesAtCell_cell (c : Vox) (px py pz : ℕ) (f : FaceG)
    (hf : f ∈ facesAtCell c px py pz) : f.x = px ∧ f.y = py ∧ f.z = pz := by
  unfold facesAtCell at hf
  by_cases h1 : c px py pz = 0
  · rw [if_pos h1] at hf
    simp at hf
  · rw [if_neg h1] at hf
    by_cases h2 : sizesFinal c px py pz = Size3.zero
    · rw [if_pos h2] at hf
      simp at hf
    · rw [if_neg h2, List.mem_map] at hf
      obtain ⟨d1, _, heq⟩ := hf
      rw [← heq]
      exact ⟨rfl, rfl, rfl⟩

lemma nodup_greedyFaces (c : Vox) : (greedyFaces c).Nodup := by
  unfold greedyFaces
  rw [List.nodup_flatMap]
  constructor
  · intro p hp
    unfold facesAtCell
    by_cases h1 : c p.1 p.2.1 p.2.2 = 0
    · rw [if_pos h1]
      simp
    · rw [if_neg h1]
      by_cases h2 : sizesFinal c p.1 p.2.1 p.2.2 = Size3.zero
      · rw [if_pos h2]
        simp
      · rw [if_neg h2]
        refine List.Nodup.map_on ?_ (List.Nodup.filter _ nodup_dirList)
        intro d1 hd1 d2 hd2 heq
        rw [FaceG.mk.injEq] at heq
        exact heq.1
  · refine nodup_cellList.imp ?_
    intro p1 p2 hne a h1 h2
    obtain ⟨e1, e2, e3⟩ := facesAtCell_cell c p1.1 p1.2.1 p1.2.2 a h1
    obtain ⟨g1, g2, g3⟩ := facesAtCell_cell c p2.1 p2.2.1 p2.2.2 a h2
    refine hne ?_
    have : p1 = (a.x, a.y, a.z) := by
      rw [e1, e2, e3]
    rw [this, g1, g2, g3]

set_option maxHeartbeats 2000000 in
/-- A surviving-cell summary for every emitted greedy face. -/
lemma greedyFaces_cell_facts (c : Vox) (f : FaceG) (hf : f ∈ greedyFaces c) :
    f.x ≤ 15 ∧ f.y ≤ 15 ∧ f.z ≤ 15 ∧ c f.x f.y f.z ≠ 0 ∧ ysurv c f.x f.y f.z ∧
      f.ext = runsAt c f.x f.y f.z ∧
      faceCondG c f.x f.y f.z (runsAt c f.x f.y f.z) f.dir := by
  obtain ⟨d, x, y, z, s⟩ := f
  rw [mem_greedyFaces] at hf
  obtain ⟨h1, h2, h3, h4, h5, h6, h7⟩ := hf
  have hys : ysurv c x y z := by
    by_contra hns
    exact h5 (by rw [sizesFinal_eq c x y z (by omega) (by omega) (by omega), if_neg hns])
  have hsz : sizesFinal c x y z = runsAt c x y z :=
    by rw [sizesFinal_eq c x y z (by omega) (by omega) (by omega), if_pos hys]
  rw [hsz] at h7
  exact ⟨show x ≤ 15 by omega, show y ≤ 15 by omega, show z ≤ 15 by omega, h4,
    hys, h6.trans hsz, h7⟩

/-- Every emitted greedy face has an exposed solid footprint cell, hence a
matching face of `default_mesh`. -/
lemma greedyFaces_exposed_witness (c : Vox) (f : FaceG) (hf : f ∈ greedyFaces c) :
    ∃ q : ℕ × ℕ × ℕ, inFootprint f q.1 q.2.1 q.2.2 ∧
      (⟨f.dir, q.1, q.2.1, q.2.2, Size3.one⟩ : FaceG) ∈ defaultFaces c := by
  obtain ⟨hx15, hy15, hz15, hsolid, hys, hext, hcond⟩ := greedyFaces_cell_facts c f hf
  obtain ⟨qx, qy, qz, hfp, hex⟩ :=
    (faceCondG_iff c f.x f.y f.z hx15 hy15 hz15 f.dir).1 hcond
  have hf_eta : f = ⟨f.dir, f.x, f.y, f.z, runsAt c f.x f.y f.z⟩ := by
    obtain ⟨d, x, y, z, s⟩ := f
    simp only at hext
    rw [hext]
  have hbox := footprint_subset_box c f.dir f.x f.y f.z qx qy qz hfp
  have hqsolid : c qx qy qz ≠ 0 := by
    rw [box_const c f.x f.y f.z qx qy qz hys.1 hbox]
    exact hsolid
  refine ⟨(qx, qy, qz), by rw [hf_eta]; exact hfp, ?_⟩
  rw [mem_defaultFaces]
  obtain ⟨hb1, hb2, hb3, hb4, hb5, hb6⟩ := hbox
  dsimp only
  exact ⟨by omega, by omega, by omega, hqsolid, rfl, hex⟩

/-! ## Claims C2 and C3: coverage and triangle count -/

lemma runsAt_ne_zero (c : Vox) (x y z : ℕ) : runsAt c x y z ≠ Size3.zero := by
  intro h
  have h1 := xrunAt_pos c y z x
  have h2 : xrunAt c y z x = 0 := congrArg Size3.x h
  omega

/-- A face with the closed-form extents is emitted by the greedy mesher as
soon as its cell is solid, survives the three merge passes, and at least one
cell of its footprint passes the exposure test. -/
lemma greedy_emits (c : Vox) (d : FaceDirection) (x y z : ℕ)
    (hx : x ≤ 15) (hy : y ≤ 15) (hz : z ≤ 15) (hsolid : c x y z ≠ 0)
    (hys : ysurv c x y z) (qx qy qz : ℕ)
    (hfp : inFootprint ⟨d, x, y, z, runsAt c x y z⟩ qx qy qz)
    (hex : exposedD c qx qy qz d) :
    (⟨d, x, y, z, runsAt c x y z⟩ : FaceG) ∈ greedyFaces c := by
  have hsz : sizesFinal c x y z = runsAt c x y z := by
    rw [sizesFinal_eq c x y z hx hy hz, if_pos hys]
  have hcond : faceCondG c x y z (runsAt c x y z) d :=
    (faceCondG_iff c x y z hx hy hz d).2 ⟨qx, qy, qz, hfp, hex⟩
  rw [mem_greedyFaces]
  refine ⟨by omega, by omega, by omega, hsolid, ?_, hsz.symm, ?_⟩
  · rw [hsz]
    exact runsAt_ne_zero c x y z
  · rw [hsz]
    exact hcond

/-- An exposed cell of a surviving cell's box lies on the box's face layer
in the exposure direction: otherwise the neighbor in that direction would
stay inside the box and be solid by box constancy, contradicting the
exposure test. -/
lemma exposed_in_box_footprint (c : Vox) (d : FaceDirection) (x y z qx qy qz : ℕ)
    (hx : x ≤ 15) (hy : y ≤ 15) (hz : z ≤ 15)
    (hys : ysurv c x y z) (hbox : inBox c x y z qx qy qz)
    (hmat : c x y z ≠ 0) (hex : exposedD c qx qy qz d) :
    inFootprint ⟨d, x, y, z, runsAt c x y z⟩ qx qy qz := by
  obtain ⟨hb1, hb2, hb3, hb4, hb5, hb6⟩ := hbox
  have hx1 := xrunAt_pos c y z x
  have hx2 := xrunAt_le c y z x
  have hy1 := yrunAt_pos c x z y
  have hy2 := yrunAt_le c x z y
  have hz1 := zrunAt_pos c x y z
  have hz2 := zrunAt_le c x y z
  cases d
  case Top =>
    unfold exposedD at hex
    unfold inFootprint
    simp only [runsAt]
    refine ⟨hb1, hb2, ?_, hb5, hb6⟩
    by_contra hne
    have hnb : c qx (qy + 1) qz = c x y z :=
      box_const c x y z qx (qy + 1) qz hys.1 ⟨hb1, hb2, by omega, by omega, hb5, hb6⟩
    rcases hex with h15 | ⟨hlt, h0⟩
    · omega
    · rw [h0] at hnb
      exact hmat hnb.symm
  case Bottom =>
    unfold exposedD at hex
    unfold inFootprint
    simp only [runsAt]
    refine ⟨hb1, hb2, ?_, hb5, hb6⟩
    by_contra hne
    have hnb : c qx (qy - 1) qz = c x y z :=
      box_const c x y z qx (qy - 1) qz hys.1 ⟨hb1, hb2, by omega, by omega, hb5, hb6⟩
    rcases hex with h0 | ⟨hpos, h0⟩
    · omega
    · rw [h0] at hnb
      exact hmat hnb.symm
  case Left =>
    unfold exposedD at hex
    unfold inFootprint
    simp only [runsAt]
    refine ⟨?_, hb3, hb4, hb5, hb6⟩
    by_contra hne
    have hnb : c (qx - 1) qy qz = c x y z :=
      box_const c x y z (qx - 1) qy qz hys.1 ⟨by omega, by omega, hb3, hb4, hb5, hb6⟩
    rcases hex with h0 | ⟨hpos, h0⟩
    · omega
    · rw [h0] at hnb
      exact hmat hnb.symm
  case Right =>
    unfold exposedD at hex
    unfold inFootprint
    simp only [runsAt]
    refine ⟨?_, hb3, hb4, hb5, hb6⟩
    by_contra hne
    have hnb : c (qx + 1) qy qz = c x y z :=
      box_const c x y z (qx + 1) qy qz hys.1 ⟨by omega, by omega, hb3, hb4, hb5, hb6⟩
    rcases hex with h15 | ⟨hlt, h0⟩
    · omega
    · rw [h0] at hnb
      exact hmat hnb.symm
  case Front =>
    unfold exposedD at hex
    unfold inFootprint
    simp only [runsAt]
    refine ⟨hb1, hb2, hb3, hb4, ?_⟩
    by_contra hne
    have hnb : c qx qy (qz + 1) = c x y z :=
      box_const c x y z qx qy (qz + 1) hys.1 ⟨hb1, hb2, hb3, hb4, by omega, by omega⟩
    rcases hex with h15 | ⟨hlt, h0⟩
    · omega
    · rw [h0] at hnb
      exact hmat hnb.symm
  case Back =>
    unfold exposedD at hex
    unfold inFootprint
    simp only [runsAt]
    refine ⟨hb1, hb2, hb3, hb4, ?_⟩
    by_contra hne
    have hnb : c qx qy (qz - 1) = c x y z :=
      box_const c x y z qx qy (qz - 1) hys.1 ⟨hb1, hb2, hb3, hb4, by omega, by omega⟩
    rcases hex with h0 | ⟨hpos, h0⟩
    · omega
    · rw [h0] at hnb
      exact hmat hnb.symm

/-- Every exposed solid cell face is covered by an emitted greedy face in
the same direction (the owner cell's face). -/
lemma greedy_covers (c : Vox) (qx qy qz : ℕ) (d : FaceDirection)
    (hqx : qx ≤ 15) (hqy : qy ≤ 15) (hqz : qz ≤ 15)
    (hsolid : c qx qy qz ≠ 0) (hex : exposedD c qx qy qz d) :
    ∃ f ∈ greedyFaces c, f.dir = d ∧ inFootprint f qx qy qz := by
  obtain ⟨hys, hx15, hy15, hz15, hbox, hmat⟩ := owner_covers c qx qy qz hqx hqy hqz
  rcases hO : chunkOwner c qx qy qz with ⟨x, y, z⟩
  rw [hO] at hys hx15 hy15 hz15 hbox hmat
  dsimp only at hys hx15 hy15 hz15 hbox hmat
  have hosolid : c x y z ≠ 0 := by
    rw [hmat]
    exact hsolid
  have hfp := exposed_in_box_footprint c d x y z qx qy qz hx15 hy15 hz15 hys hbox hosolid hex
  exact ⟨⟨d, x, y, z, runsAt c x y z⟩,
    greedy_emits c d x y z hx15 hy15 hz15 hosolid hys qx qy qz hfp hex, rfl, hfp⟩

/-- Two emitted greedy faces in the same direction sharing a footprint cell
are the same face: the shared cell lies in both emitting cells' boxes, the
box partition forces the emitting cells to coincide, and the extents are the
cell's closed forms. -/
lemma greedy_face_determined (c : Vox) (f1 f2 : FaceG)
    (h1 : f1 ∈ greedyFaces c) (h2 : f2 ∈ greedyFaces c)
    (hd : f1.dir = f2.dir) (qx qy qz : ℕ)
    (hfp1 : inFootprint f1 qx qy qz) (hfp2 : inFootprint f2 qx qy qz) :
    f1 = f2 := by
  obtain ⟨ha1, ha2, ha3, -, hys1, hext1, -⟩ := greedyFaces_cell_facts c f1 h1
  obtain ⟨hb1, hb2, hb3, -, hys2, hext2, -⟩ := greedyFaces_cell_facts c f2 h2
  obtain ⟨d1, x1, y1, z1, s1⟩ := f1
  obtain ⟨d2, x2, y2, z2, s2⟩ := f2
  dsimp only at ha1 ha2 ha3 hys1 hext1 hb1 hb2 hb3 hys2 hext2 hd
  subst hext1
  subst hext2
  subst hd
  have hbox1 := footprint_subset_box c d1 x1 y1 z1 qx qy qz hfp1
  have hbox2 := footprint_subset_box c d1 x2 y2 z2 qx qy qz hfp2
  have ho1 := owner_unique c x1 y1 z1 qx qy qz ha1 ha2 ha3 hys1 hbox1
  have ho2 := owner_unique c x2 y2 z2 qx qy qz hb1 hb2 hb3 hys2 hbox2
  have hcell := ho1.symm.trans ho2
  rw [Prod.mk.injEq, Prod.mk.injEq] at hcell
  obtain ⟨rfl, rfl, rfl⟩ := hcell
  rfl

/-- The greedy mesher emits at most as many faces as the naive mesher:
mapping each greedy face to the naive face at a chosen exposed footprint
cell is injective by the box partition. -/
lemma greedyFaces_length_le (c : Vox) :
    (greedyFaces c).length ≤ (defaultFaces c).length := by
  rw [← List.toFinset_card_of_nodup (nodup_greedyFaces c)]
  refine le_trans ?_ (List.toFinset_card_le (defaultFaces c))
  refine Finset.card_le_card_of_injOn
    (fun f =>
      if hf : f ∈ greedyFaces c then
        ⟨f.dir, (Classical.choose (greedyFaces_exposed_witness c f hf)).1,
          (Classical.choose (greedyFaces_exposed_witness c f hf)).2.1,
          (Classical.choose (greedyFaces_exposed_witness c f hf)).2.2, Size3.one⟩
      else f) ?_ ?_
  · intro f hf0
    rw [List.mem_toFinset] at hf0
    dsimp only
    rw [List.mem_toFinset, dif_pos hf0]
    exact (Classical.choose_spec (greedyFaces_exposed_witness c f hf0)).2
  · intro f1 hf1 f2 hf2 heq
    rw [Finset.mem_coe, List.mem_toFinset] at hf1 hf2
    dsimp only at heq
    rw [dif_pos hf1, dif_pos hf2, FaceG.mk.injEq] at heq
    obtain ⟨hd, hq1, hq2, hq3, -⟩ := heq
    have hfp1 := (Classical.choose_spec (greedyFaces_exposed_witness c f1 hf1)).1
    have hfp2 := (Classical.choose_spec (greedyFaces_exposed_witness c f2 hf2)).1
    rw [← hq1, ← hq2, ← hq3] at hfp2
    exact greedy_face_determined c f1 f2 hf1 hf2 hd _ _ _ hfp1 hfp2

lemma renderMesh_fold_indices (ci : ChunkIndex) (fs : List FaceG) (m : MeshData) :
    ((fs.foldl (fun m f => add_face m (cubeFaceOf f.dir) (faceOffset ci f) (faceSize f))
        m).indices.length) = m.indices.length + 6 * fs.length := by
  induction fs generalizing m with
  | nil => simp
  | cons f fs ih =>
    rw [List.foldl_cons, ih]
    have hstep : (add_face m (cubeFaceOf f.dir) (faceOffset ci f) (faceSize f)).indices.length
        = m.indices.length + 6 := by
      unfold add_face
      dsimp only
      rw [List.length_append]
      rfl
    rw [hstep, List.length_cons]
    ring

/-- Each face contributes exactly 6 indices (two triangles). -/
lemma renderMesh_indices_length (ci : ChunkIndex) (fs : List FaceG) :
    (renderMesh ci fs).indices.length = 6 * fs.length := by
  unfold renderMesh
  rw [renderMesh_fold_indices]
  simp [MeshData.new]

/-- C2.  For every chunk grid, the greedy mesher never under-draws: (1) every
exposed face of a solid voxel — one whose neighbor in the face's direction
lies outside the chunk or holds material 0 — lies in the footprint of some
emitted greedy face of the same direction (geometric coverage); and (2) a
merged face (a surviving cell with its closed-form extents) is emitted
whenever at least one cell of its footprint is exposed. -/
theorem c2_theorem (cd : ChunkData) (qx qy qz : ℕ) (d : FaceDirection)
    (hqx : qx ≤ 15) (hqy : qy ≤ 15) (hqz : qz ≤ 15)
    (hsolid : cd.voxels qx qy qz ≠ 0)
    (hex : exposedD cd.voxels qx qy qz d) :
    (∃ f ∈ greedyFaces cd.voxels, f.dir = d ∧ inFootprint f qx qy qz) ∧
      ∀ x y z : ℕ, x ≤ 15 → y ≤ 15 → z ≤ 15 → cd.voxels x y z ≠ 0 →
        ysurv cd.voxels x y z →
        inFootprint ⟨d, x, y, z, runsAt cd.voxels x y z⟩ qx qy qz →
        (⟨d, x, y, z, runsAt cd.voxels x y z⟩ : FaceG) ∈ greedyFaces cd.voxels :=
  ⟨greedy_covers cd.voxels qx qy qz d hqx hqy hqz hsolid hex,
   fun x y z hx hy hz hs hys hfp =>
     greedy_emits cd.voxels d x y z hx hy hz hs hys qx qy qz hfp hex⟩

/-- C2 (witness): in the all-solid chunk, the top face of the cell
`(0, 15, 0)` is exposed at the chunk boundary and covered. -/
theorem c2_witness :
    0 ≤ 15 ∧ (⟨0, ⟨0, 0, 0⟩, fun _ _ _ => 1⟩ : ChunkData).voxels 0 15 0 ≠ 0 ∧
      exposedD (⟨0, ⟨0, 0, 0⟩, fun _ _ _ => 1⟩ : ChunkData).voxels 0 15 0
        FaceDirection.Top ∧
      ((∃ f ∈ greedyFaces (⟨0, ⟨0, 0, 0⟩, fun _ _ _ => 1⟩ : ChunkData).voxels,
          f.dir = FaceDirection.Top ∧ inFootprint f 0 15 0) ∧
        ∀ x y z : ℕ, x ≤ 15 → y ≤ 15 → z ≤ 15 →
          (⟨0, ⟨0, 0, 0⟩, fun _ _ _ => 1⟩ : ChunkData).voxels x y z ≠ 0 →
          ysurv (⟨0, ⟨0, 0, 0⟩, fun _ _ _ => 1⟩ : ChunkData).voxels x y z →
          inFootprint ⟨FaceDirection.Top, x, y, z,
            runsAt (⟨0, ⟨0, 0, 0⟩, fun _ _ _ => 1⟩ : ChunkData).voxels x y z⟩ 0 15 0 →
          (⟨FaceDirection.Top, x, y, z,
              runsAt (⟨0, ⟨0, 0, 0⟩, fun _ _ _ => 1⟩ : ChunkData).voxels x y z⟩ : FaceG) ∈
            greedyFaces (⟨0, ⟨0, 0, 0⟩, fun _ _ _ => 1⟩ : ChunkData).voxels) :=
  ⟨by decide, by decide, by decide,
    c2_theorem ⟨0, ⟨0, 0, 0⟩, fun _ _ _ => 1⟩ 0 15 0 FaceDirection.Top
      (by decide) (by decide) (by decide) (by decide) (by decide)⟩

/-- C3.  For every chunk grid, the number of triangles emitted by
`greedy_meshing` (index-list length divided by 3) is at most the number of
triangles emitted by the naive per-voxel-face mesher `default_mesh`. -/
theorem c3_theorem (cd : ChunkData) :
    (greedy_meshing cd).indices.length / 3 ≤ (default_mesh cd).indices.length / 3 := by
  unfold greedy_meshing default_mesh
  rw [renderMesh_indices_length, renderMesh_indices_length]
  have h := greedyFaces_length_le cd.voxels
  exact Nat.div_le_div_right (by omega)
